import Mathlib

/-!
Verification of the TradeButler trade-matching and analytics engine
(`src/src-tauri/src/commands.rs`) against its specification.

Numeric model: the Rust code computes with `f64`; we embed all numeric
fields as exact rationals (`ℚ`), which captures the algebra of the code
(every arithmetic step is translated literally) while abstracting from
floating-point rounding.  The `0.0001` quantity epsilon of the source is
the named constant `eps` below.

String model: Rust compares timestamps with `String::cmp`, i.e.
byte-lexicographic comparison.  We embed this as the char-lexicographic
comparison `strLe` on `String.data`, which agrees with the byte order on
ASCII data (all timestamps in this system are ISO-like ASCII strings).
-/

namespace TradeButler

/-- The `0.0001` floating-point tolerance used throughout `pair_trades`. -/
def eps : ℚ := 1 / 10000

/-- Lexicographic `≤` on char lists: the embedding of Rust's
`String::cmp`-induced order restricted to `≤` (byte order on ASCII). -/
def charsLe : List Char → List Char → Bool
  | [], _ => true
  | _ :: _, [] => false
  | a :: as, b :: bs =>
    Char.toNat a < Char.toNat b || (Char.toNat a == Char.toNat b && charsLe as bs)

/-- `a <= b` on strings, as Rust's lexicographic string comparison. -/
def strLe (a b : String) : Bool := charsLe a.data b.data

/-- Embedding of Rust `str::to_uppercase` for the ASCII side strings
`"Buy"`/`"Sell"` (per-char uppercase). -/
def toUpperStr (s : String) : String := ⟨s.data.map Char.toUpper⟩

/-- Embedding of
`symbol.chars().collect::<Vec<_>>().windows(6).any(|w| w.iter().all(|c| c.is_ascii_digit()))`:
some window of six consecutive chars consists of ASCII digits. -/
def sixDigitWindow : List Char → Bool
  | c1 :: c2 :: c3 :: c4 :: c5 :: c6 :: rest =>
    (c1.isDigit && c2.isDigit && c3.isDigit && c4.isDigit && c5.isDigit && c6.isDigit) ||
      sixDigitWindow (c2 :: c3 :: c4 :: c5 :: c6 :: rest)
  | _ => false

/-- Embedding of `is_options_symbol` (commands.rs:205).  Rust's
`symbol.len()` is the byte length; for the ASCII symbols this system
handles it equals the char count `s.data.length`. -/
def is_options_symbol (symbol : String) : Bool :=
  if symbol.data.length < 10 then
    false
  else
    let has_call_put := symbol.data.any (· == 'C') || symbol.data.any (· == 'P')
    if !has_call_put then
      false
    else
      let has_date_pattern := sixDigitWindow symbol.data
      has_call_put && (has_date_pattern || symbol.data.length > 15)

/-- The options multiplier applied in `pair_trades`:
`if is_options_symbol(&symbol) { 100.0 } else { 1.0 }`. -/
def options_multiplier (symbol : String) : ℚ :=
  if is_options_symbol symbol then 100 else 1

/-- Embedding of `database::Trade`.  `f64` fields become `ℚ`, `i64`
becomes `Int`. -/
structure Trade where
  id : Option Int
  symbol : String
  side : String
  quantity : ℚ
  price : ℚ
  timestamp : String
  order_type : String
  status : String
  fees : Option ℚ
  notes : Option String
  strategy_id : Option Int
  deriving DecidableEq, Inhabited

/-- Embedding of `commands::PairedTrade`. -/
structure PairedTrade where
  symbol : String
  entry_trade_id : Int
  exit_trade_id : Int
  quantity : ℚ
  entry_price : ℚ
  exit_price : ℚ
  entry_timestamp : String
  exit_timestamp : String
  gross_profit_loss : ℚ
  entry_fees : ℚ
  exit_fees : ℚ
  net_profit_loss : ℚ
  strategy_id : Option Int
  notes : Option String
  deriving DecidableEq, Inhabited

/-- One open lot of `pair_trades`' working state: the Rust tuple
`(id, remaining_qty, price, timestamp, fees, strategy_id)`. -/
structure Lot where
  id : Int
  qty : ℚ
  price : ℚ
  timestamp : String
  fees : ℚ
  strategy_id : Option Int
  deriving DecidableEq, Inhabited

/-- The two per-symbol lot maps plus the emitted pairs.  The Rust code
uses `HashMap<String, Vec<Lot>>`; we embed the map contents as an
association list in key-insertion order (the map's *contents* are
deterministic; only its iteration order is not, see `pair_trades`). -/
structure MatchState where
  paired_trades : List PairedTrade
  long_positions : List (String × List Lot)
  short_positions : List (String × List Lot)

/-- `HashMap::get_mut`: the value stored at a key, if the key is present
(a present key may hold an empty lot vector). -/
def lookupPos : List (String × List Lot) → String → Option (List Lot)
  | [], _ => none
  | (k', lots) :: rest, k => if k' = k then some lots else lookupPos rest k

/-- Writing back the (mutated in place, in Rust) lot vector of a key. -/
def setPos : List (String × List Lot) → String → List Lot → List (String × List Lot)
  | [], _, _ => []
  | (k', lots) :: rest, k, lots' =>
    if k' = k then (k', lots') :: rest else (k', lots) :: setPos rest k lots'

/-- `map.entry(symbol).or_insert_with(Vec::new).push(lot)`. -/
def pushLot : List (String × List Lot) → String → Lot → List (String × List Lot)
  | [], k, lot => [(k, [lot])]
  | (k', lots) :: rest, k, lot =>
    if k' = k then (k', lots ++ [lot]) :: rest else (k', lots) :: pushLot rest k lot

/-- The inner `while remaining > 0.0001 && !positions.is_empty()` loop of
`pair_trades` (commands.rs:306 and 397), generic over direction:
`incomingIsBuy = true` is the BUY-closes-short-lots branch (the lot is a
SELL entry), `incomingIsBuy = false` the SELL-closes-long-lots branch.
In both branches the lot supplies the entry side of the emitted pair and
the incoming trade the exit side, the lot fee is prorated by
`qty_to_close / lot_remaining_qty` and the incoming fee by
`qty_to_close / total_qty`, and `net = gross - lot_fees - trade_fees`.

The loop terminates because every iteration either removes a lot or
drives `remaining` to zero; `fuel = positions.length + 1` (used at the
call sites) therefore always suffices, so this fuel-indexed recursion
computes exactly the Rust loop. -/
def closeLoop (is_fifo incomingIsBuy : Bool) (symbol : String) (trade_id : Int)
    (price : ℚ) (timestamp : String) (total_fees : ℚ) (strategy_id : Option Int)
    (total_qty : ℚ) :
    Nat → ℚ → List Lot → List PairedTrade × List Lot × ℚ
  | 0, remaining, positions => ([], positions, remaining)
  | fuel + 1, remaining, positions =>
    if eps < remaining ∧ positions ≠ [] then
      let position_index := if is_fifo then 0 else positions.length - 1
      let lot := positions.getD position_index default
      let qty_to_close := min remaining lot.qty
      let lot_fee_ratio := qty_to_close / lot.qty
      let prorated_lot_fees := lot.fees * lot_fee_ratio
      let trade_fee_ratio := qty_to_close / total_qty
      let prorated_trade_fees := total_fees * trade_fee_ratio
      let gross_pnl :=
        (if incomingIsBuy then lot.price - price else price - lot.price) * qty_to_close
      let net_pnl := gross_pnl - prorated_lot_fees - prorated_trade_fees
      let m := options_multiplier symbol
      let pair : PairedTrade :=
        { symbol := symbol
          entry_trade_id := lot.id
          exit_trade_id := trade_id
          quantity := qty_to_close
          entry_price := lot.price
          exit_price := price
          entry_timestamp := lot.timestamp
          exit_timestamp := timestamp
          gross_profit_loss := gross_pnl * m
          entry_fees := prorated_lot_fees
          exit_fees := prorated_trade_fees
          net_profit_loss := net_pnl * m
          strategy_id := lot.strategy_id.or strategy_id
          notes := none }
      let new_qty := lot.qty - qty_to_close
      let positions' :=
        if new_qty < eps then positions.eraseIdx position_index
        else positions.set position_index { lot with qty := new_qty }
      let rest := closeLoop is_fifo incomingIsBuy symbol trade_id price timestamp total_fees
        strategy_id total_qty fuel (remaining - qty_to_close) positions'
      (pair :: rest.1, rest.2)
    else ([], positions, remaining)

/-- Processing of one trade in the main `for trade in sorted_trades` loop
of `pair_trades` (commands.rs:288). -/
def processTrade (is_fifo : Bool) (st : MatchState) (trade : Trade) : MatchState :=
  let trade_id := trade.id.getD 0
  let symbol := trade.symbol
  if toUpperStr trade.side = "BUY" then
    match lookupPos st.short_positions symbol with
    | some positions =>
      let total_buy_fees := trade.fees.getD 0
      let total_buy_qty := trade.quantity
      let res := closeLoop is_fifo true symbol trade_id trade.price trade.timestamp
        total_buy_fees trade.strategy_id total_buy_qty
        (positions.length + 1) trade.quantity positions
      let remaining_buy_qty := res.2.2
      let short_positions' := setPos st.short_positions symbol res.2.1
      let long_positions' :=
        if eps < remaining_buy_qty then
          pushLot st.long_positions symbol
            ⟨trade_id, remaining_buy_qty, trade.price, trade.timestamp,
              total_buy_fees * (remaining_buy_qty / total_buy_qty), trade.strategy_id⟩
        else st.long_positions
      ⟨st.paired_trades ++ res.1, long_positions', short_positions'⟩
    | none =>
      ⟨st.paired_trades,
        pushLot st.long_positions symbol
          ⟨trade_id, trade.quantity, trade.price, trade.timestamp,
            trade.fees.getD 0, trade.strategy_id⟩,
        st.short_positions⟩
  else if toUpperStr trade.side = "SELL" then
    match lookupPos st.long_positions symbol with
    | some positions =>
      let total_sell_fees := trade.fees.getD 0
      let total_sell_qty := trade.quantity
      let res := closeLoop is_fifo false symbol trade_id trade.price trade.timestamp
        total_sell_fees trade.strategy_id total_sell_qty
        (positions.length + 1) trade.quantity positions
      let remaining_sell_qty := res.2.2
      let long_positions' := setPos st.long_positions symbol res.2.1
      let short_positions' :=
        if eps < remaining_sell_qty then
          pushLot st.short_positions symbol
            ⟨trade_id, remaining_sell_qty, trade.price, trade.timestamp,
              total_sell_fees * (remaining_sell_qty / total_sell_qty), trade.strategy_id⟩
        else st.short_positions
      ⟨st.paired_trades ++ res.1, long_positions', short_positions'⟩
    | none =>
      ⟨st.paired_trades,
        st.long_positions,
        pushLot st.short_positions symbol
          ⟨trade_id, trade.quantity, trade.price, trade.timestamp,
            trade.fees.getD 0, trade.strategy_id⟩⟩
  else st

/-- The synthetic open `Trade`s emitted for one map entry at the end of
`pair_trades` (commands.rs:479 and 498): every lot with
`qty > 0.0001` becomes an `"OPEN"` trade on the given side. -/
def openTradesFor (side : String) (entry : String × List Lot) : List Trade :=
  entry.2.filterMap fun lot =>
    if eps < lot.qty then
      some
        { id := some lot.id
          symbol := entry.1
          side := side
          quantity := lot.qty
          price := lot.price
          timestamp := lot.timestamp
          order_type := "OPEN"
          status := "OPEN"
          fees := some lot.fees
          notes := none
          strategy_id := lot.strategy_id }
    else none

/-- Embedding of `pair_trades` (commands.rs:273).

The trades are sorted ascending by timestamp with a stable sort
(`sorted_trades.sort_by(|a, b| a.timestamp.cmp(&b.timestamp))`); a stable
sort's output is uniquely determined by the input and the comparison, so
insertion sort — which is stable — computes exactly the Rust sort.

`iter` models the iteration order of the final
`for (symbol, positions) in long_positions` loops over the Rust
`HashMap`: the kernel of Rust's `HashMap` is randomly seeded, so the
order in which entries are visited is an environment choice; any
permutation of the entries is a possible behaviour.  The emitted *pairs*
do not depend on `iter` at all. -/
def pair_trades (trades : List Trade) (is_fifo : Bool)
    (iter : List (String × List Lot) → List (String × List Lot)) :
    List PairedTrade × List Trade :=
  let sorted_trades :=
    List.insertionSort (fun a b : Trade => strLe a.timestamp b.timestamp = true) trades
  let st := sorted_trades.foldl (processTrade is_fifo) ⟨[], [], []⟩
  (st.paired_trades,
    ((iter st.long_positions).map (openTradesFor "BUY")).flatten ++
      ((iter st.short_positions).map (openTradesFor "SELL")).flatten)

/-! ## Aggregates over matcher output used by the claims -/

/-- Sum of `net_profit_loss` over a pair list. -/
def netTotal (pairs : List PairedTrade) : ℚ := (pairs.map PairedTrade.net_profit_loss).sum

/-- Sum of `gross_profit_loss` over a pair list. -/
def grossTotal (pairs : List PairedTrade) : ℚ := (pairs.map PairedTrade.gross_profit_loss).sum

/-- The entry-side fee contributions attributed to the trade with id `tid`:
sum of `entry_fees` over the pairs whose entry is that trade. -/
def entryFeeSumFor (pairs : List PairedTrade) (tid : Int) : ℚ :=
  ((pairs.filter fun p => p.entry_trade_id = tid).map PairedTrade.entry_fees).sum

/-- Sum of `exit_fees` over a pair list. -/
def exitFeesTotal (pairs : List PairedTrade) : ℚ := (pairs.map PairedTrade.exit_fees).sum

/-- Total input quantity of trades of the given (uppercased) side and symbol. -/
def sideQtyTotal (trades : List Trade) (side sym : String) : ℚ :=
  ((trades.filter fun t => toUpperStr t.side = side ∧ t.symbol = sym).map Trade.quantity).sum

/-- Total closed quantity over the pairs of one symbol. -/
def pairsQtyTotal (pairs : List PairedTrade) (sym : String) : ℚ :=
  ((pairs.filter fun p => p.symbol = sym).map PairedTrade.quantity).sum

/-- Total residual quantity of the synthetic open trades of one side and symbol. -/
def openQtyTotal : List Trade → String → String → ℚ
  | [], _, _ => 0
  | t :: rest, side, sym =>
    (if t.side = side ∧ t.symbol = sym then t.quantity else 0) + openQtyTotal rest side sym

/-! ## Date filtering and metrics (get_metrics, commands.rs:1363 / 1532 / 1724) -/

/-- The date-range filter applied to paired trades in `get_metrics`
(commands.rs:1364) and, identically, in `get_tilt_metric`
(commands.rs:4402): keep a pair iff `exit_timestamp >= start` (when a
start is given) and `exit_timestamp <= end` (when an end is given),
under plain string comparison of the full exit timestamp. -/
def filterPairsByDate (pairs : List PairedTrade) (start_date end_date : Option String) :
    List PairedTrade :=
  if start_date.isSome || end_date.isSome then
    pairs.filter fun pair =>
      (match start_date with
        | some start => strLe start pair.exit_timestamp
        | none => true) &&
      (match end_date with
        | some e => strLe pair.exit_timestamp e
        | none => true)
  else pairs

/-- `total_profit` of `get_metrics`: the sum of positive pair net P&L. -/
def totalProfit (pairs : List PairedTrade) : ℚ :=
  ((pairs.map PairedTrade.net_profit_loss).filter fun x => 0 < x).sum

/-- `total_loss` of `get_metrics`: the sum of `pnl.abs()` over negative pair net P&L. -/
def totalLoss (pairs : List PairedTrade) : ℚ :=
  (((pairs.map PairedTrade.net_profit_loss).filter fun x => x < 0).map fun x => |x|).sum

/-- The internal `profit_factor` of `get_metrics` (commands.rs:1532):
`none` models the `f64::INFINITY` the Rust code assigns when there are
profits but no losses. -/
def profitFactorRaw (pairs : List PairedTrade) : Option ℚ :=
  if 0 < totalLoss pairs then some (totalProfit pairs / totalLoss pairs)
  else if 0 < totalProfit pairs then none
  else some 0

/-- The `profit_factor` field of the returned `Metrics`
(commands.rs:1724): `if profit_factor == f64::INFINITY { 0.0 } else { profit_factor }`. -/
def metricsProfitFactor (pairs : List PairedTrade) : ℚ :=
  match profitFactorRaw pairs with
  | none => 0
  | some x => x

/-- `get_metrics`' profit factor as a function of the raw pair list and
the optional date range (composition of the filter and the computation). -/
def get_metrics_profit_factor (pairs : List PairedTrade) (sd ed : Option String) : ℚ :=
  metricsProfitFactor (filterPairsByDate pairs sd ed)

/-! ## Tilt analyzer streak statistics (get_tilt_metric, commands.rs:4535) -/

/-- Sorting of the filtered pairs by exit timestamp ascending
(`sorted_trades.sort_by(|a, b| a.exit_timestamp.cmp(&b.exit_timestamp))`). -/
def sortPairsByExit (pairs : List PairedTrade) : List PairedTrade :=
  List.insertionSort (fun a b : PairedTrade => strLe a.exit_timestamp b.exit_timestamp = true) pairs

/-- `pnl_values`: the net P&L of the sorted pairs. -/
def pnlValues (pairs : List PairedTrade) : List ℚ := pairs.map PairedTrade.net_profit_loss

/-- The index set of the per-`k` streak sample
(`for i in k..len { ... all_losses && pnl_values[i] != 0.0 ... }`,
commands.rs:4543): indices `i ∈ [k, len)` whose `k` immediately
preceding values are all negative and whose own value is nonzero. -/
def afterKLossesIdx (pnl : List ℚ) (k : Nat) : List Nat :=
  (List.range' k (pnl.length - k)).filter fun i =>
    ((List.range' (i - k) k).all fun j => decide (pnl.getD j 0 < 0)) &&
      decide (pnl.getD i 0 ≠ 0)

/-- `after_k_losses_pnl`: the sampled P&L values themselves. -/
def afterKLossesSample (pnl : List ℚ) (k : Nat) : List ℚ :=
  (afterKLossesIdx pnl k).map fun i => pnl.getD i 0

/-- Embedding of `commands::StreakStats`. -/
structure StreakStats where
  k : Int
  sample_size : Int
  win_rate_after_k_losses : ℚ
  avg_pnl_after_k_losses : ℚ
  deriving DecidableEq, Inhabited

/-- The per-`k` statistics of the tilt analyzer (commands.rs:4556). -/
def streakStatsFor (pnl : List ℚ) (k : Nat) : StreakStats :=
  let sample := afterKLossesSample pnl k
  let total := sample.length
  let wins := (sample.filter fun x => decide (0 < x)).length
  { k := (k : Int)
    sample_size := (total : Int)
    win_rate_after_k_losses := if 0 < total then (wins : ℚ) / (total : ℚ) else 0
    avg_pnl_after_k_losses := if 0 < total then sample.sum / (total : ℚ) else 0 }

/-- `for k in 1..=4 { streak_stats.push(...) }`. -/
def streak_stats (pnl : List ℚ) : List StreakStats :=
  [1, 2, 3, 4].map (streakStatsFor pnl)

/-- The streak statistics produced by `get_tilt_metric` from its pair
list and optional date range: filter by date, sort by exit timestamp,
and — when at least 10 pairs remain (otherwise the command returns the
"Insufficient Data" result whose `streak_stats` is empty) — compute the
per-`k` statistics of the net-P&L sequence. -/
def getTiltStreakStats (pairs : List PairedTrade) (sd ed : Option String) : List StreakStats :=
  let sorted_trades := sortPairsByExit (filterPairsByDate pairs sd ed)
  if sorted_trades.length < 10 then [] else streak_stats (pnlValues sorted_trades)

/-! ## Spec-side definitions (formalizations of the spec's wording, used
only to compare against the code-derived definitions above) -/

/-- Spec-side (§4.1): the length of the maximal run of consecutive
losses immediately preceding index `i` ("exactly k consecutive losses"
at `i` means this equals `k`). -/
def precedingLossRun (pnl : List ℚ) : Nat → Nat
  | 0 => 0
  | i + 1 => if pnl.getD i 0 < 0 then precedingLossRun pnl i + 1 else 0

/-- Spec-side: how many indices follow *exactly* `k` consecutive losses
and carry nonzero P&L. -/
def exactlyKCount (pnl : List ℚ) (k : Nat) : Nat :=
  ((List.range pnl.length).filter fun i =>
    decide (precedingLossRun pnl i = k) && decide (pnl.getD i 0 ≠ 0)).length

/-- Spec-side formalization of §4.1 `is_option`: at least 10 characters,
contains `C` or `P`, and contains six consecutive ASCII digits or is
longer than 15 characters. -/
def spec_is_option (s : String) : Prop :=
  10 ≤ s.data.length ∧ ('C' ∈ s.data ∨ 'P' ∈ s.data) ∧
    ((∃ pre ds post, s.data = pre ++ ds ++ post ∧ ds.length = 6 ∧ ∀ c ∈ ds, c.isDigit = true) ∨
      15 < s.data.length)

/-! ## Concrete inputs used by counterexamples and witnesses -/

/-- A buy of one option contract carrying a $1 fee. -/
def optBuy : Trade :=
  ⟨some 1, "SPY251218C00679000", "Buy", 1, 1, "1", "Market", "Filled", some 1, none, none⟩

/-- The sale closing `optBuy`, fee-free. -/
def optSell : Trade :=
  ⟨some 2, "SPY251218C00679000", "Sell", 1, 2, "2", "Market", "Filled", some 0, none, none⟩

def optTrades : List Trade := [optBuy, optSell]

/-- A buy of 10 shares with a $10 fee, later closed by two sells of 5:
the lot is consumed in two tranches. -/
def c2trades : List Trade :=
  [⟨some 1, "AAPL", "Buy", 10, 100, "1", "Market", "Filled", some 10, none, none⟩,
   ⟨some 2, "AAPL", "Sell", 5, 100, "2", "Market", "Filled", some 0, none, none⟩,
   ⟨some 3, "AAPL", "Sell", 5, 100, "3", "Market", "Filled", some 0, none, none⟩]

/-- Two buys on different symbols, both left open. -/
def c3trades : List Trade :=
  [⟨some 1, "AAA", "Buy", 1, 1, "1", "Market", "Filled", some 0, none, none⟩,
   ⟨some 2, "BBB", "Buy", 1, 1, "2", "Market", "Filled", some 0, none, none⟩]

/-- Two buy lots (the first carrying a $10 fee) fully closed by two
sells of different sizes: FIFO splits the fee-bearing lot, LIFO does not. -/
def c4trades : List Trade :=
  [⟨some 1, "AAPL", "Buy", 10, 100, "1", "Market", "Filled", some 10, none, none⟩,
   ⟨some 2, "AAPL", "Buy", 5, 100, "2", "Market", "Filled", some 0, none, none⟩,
   ⟨some 3, "AAPL", "Sell", 5, 100, "3", "Market", "Filled", some 0, none, none⟩,
   ⟨some 4, "AAPL", "Sell", 10, 100, "4", "Market", "Filled", some 0, none, none⟩]

/-- A short of 10 closed by a buy of 10.00005: the residual 0.00005 is
below the 0.0001 epsilon and is silently dropped. -/
def c5trades : List Trade :=
  [⟨some 1, "XYZ", "Sell", 10, 1, "1", "Market", "Filled", some 0, none, none⟩,
   ⟨some 2, "XYZ", "Buy", 200001 / 20000, 1, "2", "Market", "Filled", some 0, none, none⟩]

/-- A pair whose exit falls on 2024-01-05 with a time-of-day component. -/
def c7pair : PairedTrade :=
  ⟨"AAPL", 1, 2, 1, 100, 101, "2024-01-04T10:00:00Z", "2024-01-05T10:00:00Z",
    1, 0, 0, 1, none, none⟩

/-- Ten pairs with net P&L `[-1, -1, -1, 1, 1, 1, 1, 1, 1, 1]` in exit
order: the fourth pair follows three consecutive losses. -/
def c8pairs : List PairedTrade :=
  [⟨"A", 1, 2, 1, 1, 1, "0", "0", -1, 0, 0, -1, none, none⟩,
   ⟨"A", 1, 2, 1, 1, 1, "1", "1", -1, 0, 0, -1, none, none⟩,
   ⟨"A", 1, 2, 1, 1, 1, "2", "2", -1, 0, 0, -1, none, none⟩,
   ⟨"A", 1, 2, 1, 1, 1, "3", "3", 1, 0, 0, 1, none, none⟩,
   ⟨"A", 1, 2, 1, 1, 1, "4", "4", 1, 0, 0, 1, none, none⟩,
   ⟨"A", 1, 2, 1, 1, 1, "5", "5", 1, 0, 0, 1, none, none⟩,
   ⟨"A", 1, 2, 1, 1, 1, "6", "6", 1, 0, 0, 1, none, none⟩,
   ⟨"A", 1, 2, 1, 1, 1, "7", "7", 1, 0, 0, 1, none, none⟩,
   ⟨"A", 1, 2, 1, 1, 1, "8", "8", 1, 0, 0, 1, none, none⟩,
   ⟨"A", 1, 2, 1, 1, 1, "9", "9", 1, 0, 0, 1, none, none⟩]

/-- The P&L sequence of `c8pairs`. -/
def c8pnl : List ℚ := [-1, -1, -1, 1, 1, 1, 1, 1, 1, 1]

/-- A single winning pair (net +5) with no losing pairs. -/
def c9pairs : List PairedTrade :=
  [⟨"AAPL", 1, 2, 1, 100, 105, "1", "2", 5, 0, 0, 5, none, none⟩]

/-! ## Proof infrastructure: named components of one `closeLoop` step and
summed quantities of the working state.  These are abbreviations for
subterms of `closeLoop`/`pair_trades`, introduced only so that lemmas can
speak about them; the embeddings above remain the definitions of record. -/

/-- `position_index` of one loop step. -/
def stepIdx (is_fifo : Bool) (positions : List Lot) : Nat :=
  if is_fifo then 0 else positions.length - 1

/-- The lot selected by one loop step. -/
def stepLot (is_fifo : Bool) (positions : List Lot) : Lot :=
  positions.getD (stepIdx is_fifo positions) default

/-- `qty_to_close` of one loop step. -/
def stepQty (is_fifo : Bool) (remaining : ℚ) (positions : List Lot) : ℚ :=
  min remaining (stepLot is_fifo positions).qty

/-- The lot list after one loop step. -/
def stepPositions (is_fifo : Bool) (remaining : ℚ) (positions : List Lot) : List Lot :=
  if (stepLot is_fifo positions).qty - stepQty is_fifo remaining positions < eps then
    positions.eraseIdx (stepIdx is_fifo positions)
  else
    positions.set (stepIdx is_fifo positions)
      { stepLot is_fifo positions with
        qty := (stepLot is_fifo positions).qty - stepQty is_fifo remaining positions }

/-- The pair emitted by one loop step. -/
def stepPair (is_fifo incomingIsBuy : Bool) (symbol : String) (trade_id : Int)
    (price : ℚ) (timestamp : String) (total_fees : ℚ) (strategy_id : Option Int)
    (total_qty : ℚ) (remaining : ℚ) (positions : List Lot) : PairedTrade :=
  let lot := stepLot is_fifo positions
  let q := stepQty is_fifo remaining positions
  { symbol := symbol
    entry_trade_id := lot.id
    exit_trade_id := trade_id
    quantity := q
    entry_price := lot.price
    exit_price := price
    entry_timestamp := lot.timestamp
    exit_timestamp := timestamp
    gross_profit_loss :=
      (if incomingIsBuy then lot.price - price else price - lot.price) * q *
        options_multiplier symbol
    entry_fees := lot.fees * (q / lot.qty)
    exit_fees := total_fees * (q / total_qty)
    net_profit_loss :=
      ((if incomingIsBuy then lot.price - price else price - lot.price) * q -
          lot.fees * (q / lot.qty) - total_fees * (q / total_qty)) *
        options_multiplier symbol
    strategy_id := lot.strategy_id.or strategy_id
    notes := none }

/-- Total remaining quantity of a lot list. -/
def lotsQty (lots : List Lot) : ℚ := (lots.map Lot.qty).sum

/-- Total price-weighted remaining quantity of a lot list. -/
def lotsVal (lots : List Lot) : ℚ := (lots.map fun lot => lot.price * lot.qty).sum

/-- Total closed quantity of a pair list. -/
def pairsQty (pairs : List PairedTrade) : ℚ := (pairs.map PairedTrade.quantity).sum

/-- Total entry-price-weighted closed quantity of a pair list. -/
def pairsEntryVal (pairs : List PairedTrade) : ℚ :=
  (pairs.map fun p => p.entry_price * p.quantity).sum

/-- Total remaining quantity stored in a positions map under one symbol. -/
def mapQty : List (String × List Lot) → String → ℚ
  | [], _ => 0
  | (k, lots) :: rest, sym => (if k = sym then lotsQty lots else 0) + mapQty rest sym

/-- Multiplier-weighted total value stored in a positions map. -/
def mapVal : List (String × List Lot) → ℚ
  | [] => 0
  | (k, lots) :: rest => options_multiplier k * lotsVal lots + mapVal rest

/-- All lots stored under any key of the map. -/
def mapLots : List (String × List Lot) → List Lot
  | [] => []
  | (_, lots) :: rest => lots ++ mapLots rest

/-- A lot quantity that is a positive integer (the quantities arising
from integer-quantity inputs). -/
def lotNat (lot : Lot) : Prop := ∃ n : ℕ, lot.qty = (n : ℚ) ∧ 1 ≤ n

/-- A rational that is a natural number. -/
def qNat (x : ℚ) : Prop := ∃ n : ℕ, x = (n : ℚ)

/-- All lots of both position maps of a state. -/
def stateLots (st : MatchState) : List Lot :=
  mapLots st.long_positions ++ mapLots st.short_positions

/-- All lot quantities of the state are positive integers. -/
def stateNat (st : MatchState) : Prop := ∀ lot ∈ stateLots st, lotNat lot

/-- Buy-side quantity bookkeeping of a state for one symbol: quantity
closed in pairs plus quantity open in long lots. -/
def buyBalance (st : MatchState) (sym : String) : ℚ :=
  pairsQtyTotal st.paired_trades sym + mapQty st.long_positions sym

/-- Sell-side quantity bookkeeping of a state for one symbol. -/
def sellBalance (st : MatchState) (sym : String) : ℚ :=
  pairsQtyTotal st.paired_trades sym + mapQty st.short_positions sym

/-- Gross-P&L bookkeeping of a state. -/
def valBalance (st : MatchState) : ℚ :=
  grossTotal st.paired_trades - mapVal st.long_positions + mapVal st.short_positions

/-- The contribution of one processed trade to `valBalance`. -/
def tradeDelta (t : Trade) : ℚ :=
  if toUpperStr t.side = "BUY" then -(options_multiplier t.symbol * t.price * t.quantity)
  else if toUpperStr t.side = "SELL" then options_multiplier t.symbol * t.price * t.quantity
  else 0

/-- The contribution of one processed trade to `buyBalance st sym`
(resp. `sellBalance` with side `"SELL"`). -/
def sideDelta (t : Trade) (side sym : String) : ℚ :=
  if toUpperStr t.side = side ∧ t.symbol = sym then t.quantity else 0

/-- Sum of `sideDelta` over a trade list. -/
def sideDeltaSum (l : List Trade) (side sym : String) : ℚ :=
  (l.map fun t => sideDelta t side sym).sum

/-- Sum of `tradeDelta` over a trade list. -/
def tradeDeltaSum (l : List Trade) : ℚ := (l.map tradeDelta).sum

/-! ## The lexicographic string order: totality, transitivity, prefixes -/

theorem charsLe_total : ∀ a b : List Char, charsLe a b = true ∨ charsLe b a = true
  | [], _ => Or.inl rfl
  | _ :: _, [] => Or.inr rfl
  | a :: as, b :: bs => by
    simp only [charsLe, Bool.or_eq_true, Bool.and_eq_true, decide_eq_true_eq, beq_iff_eq]
    rcases Nat.lt_trichotomy a.toNat b.toNat with h | h | h
    · exact Or.inl (Or.inl h)
    · rcases charsLe_total as bs with ih | ih
      · exact Or.inl (Or.inr ⟨h, ih⟩)
      · exact Or.inr (Or.inr ⟨h.symm, ih⟩)
    · exact Or.inr (Or.inl h)

theorem charsLe_trans : ∀ {a b c : List Char},
    charsLe a b = true → charsLe b c = true → charsLe a c = true
  | [], _, _, _, _ => rfl
  | _ :: _, [], _, h1, _ => by simp [charsLe] at h1
  | _ :: _, _ :: _, [], _, h2 => by simp [charsLe] at h2
  | a :: as, b :: bs, c :: cs, h1, h2 => by
    simp only [charsLe, Bool.or_eq_true, Bool.and_eq_true, decide_eq_true_eq,
      beq_iff_eq] at h1 h2 ⊢
    rcases h1 with h1 | ⟨h1e, h1r⟩
    · rcases h2 with h2 | ⟨h2e, h2r⟩
      · exact Or.inl (h1.trans h2)
      · exact Or.inl (h2e ▸ h1)
    · rcases h2 with h2 | ⟨h2e, h2r⟩
      · exact Or.inl (h1e ▸ h2)
      · exact Or.inr ⟨h1e.trans h2e, charsLe_trans h1r h2r⟩

instance : IsTotal Trade fun a b : Trade => strLe a.timestamp b.timestamp = true :=
  ⟨fun a b => charsLe_total a.timestamp.data b.timestamp.data⟩

instance : IsTrans Trade fun a b : Trade => strLe a.timestamp b.timestamp = true :=
  ⟨fun _ _ _ => charsLe_trans⟩

instance : IsTotal PairedTrade fun a b : PairedTrade =>
    strLe a.exit_timestamp b.exit_timestamp = true :=
  ⟨fun a b => charsLe_total a.exit_timestamp.data b.exit_timestamp.data⟩

instance : IsTrans PairedTrade fun a b : PairedTrade =>
    strLe a.exit_timestamp b.exit_timestamp = true :=
  ⟨fun _ _ _ => charsLe_trans⟩

/-- A string compares `≤` any extension of itself: exits *on* the start
date compare `≥` the bare start-date string. -/
theorem charsLe_self_append (l r : List Char) : charsLe l (l ++ r) = true := by
  induction l with
  | nil => rfl
  | cons a as ih => simp [charsLe, ih]

/-- A proper extension never compares `≤` its own prefix: an exit
timestamp extending the bare end-date string is excluded by
`exit <= end`. -/
theorem charsLe_append_self (l : List Char) (c : Char) (r : List Char) :
    charsLe (l ++ c :: r) l = false := by
  induction l with
  | nil => rfl
  | cons a as ih => simp [charsLe, ih]

/-! ## Unfolding equations for `closeLoop` -/

section CloseLoop

variable (ff bb : Bool) (sym : String) (tid : Int) (price : ℚ) (ts : String)
  (tf : ℚ) (sid : Option Int) (tq : ℚ)

theorem closeLoop_zero (remaining : ℚ) (positions : List Lot) :
    closeLoop ff bb sym tid price ts tf sid tq 0 remaining positions =
      ([], positions, remaining) := rfl

theorem closeLoop_succ_pos (fuel : Nat) (remaining : ℚ) (positions : List Lot)
    (hc : eps < remaining ∧ positions ≠ []) :
    closeLoop ff bb sym tid price ts tf sid tq (fuel + 1) remaining positions =
      (stepPair ff bb sym tid price ts tf sid tq remaining positions ::
          (closeLoop ff bb sym tid price ts tf sid tq fuel
            (remaining - stepQty ff remaining positions)
            (stepPositions ff remaining positions)).1,
        (closeLoop ff bb sym tid price ts tf sid tq fuel
          (remaining - stepQty ff remaining positions)
          (stepPositions ff remaining positions)).2) := by
  rw [closeLoop, if_pos hc]; rfl

theorem closeLoop_succ_neg (fuel : Nat) (remaining : ℚ) (positions : List Lot)
    (hc : ¬(eps < remaining ∧ positions ≠ [])) :
    closeLoop ff bb sym tid price ts tf sid tq (fuel + 1) remaining positions =
      ([], positions, remaining) := by
  rw [closeLoop, if_neg hc]

theorem stepIdx_lt (positions : List Lot) (h : positions ≠ []) :
    stepIdx ff positions < positions.length := by
  have h0 : 0 < positions.length := List.length_pos.mpr h
  rw [stepIdx]; split <;> omega

theorem stepLot_mem (positions : List Lot) (h : positions ≠ []) :
    stepLot ff positions ∈ positions := by
  rw [stepLot, List.getD_eq_getElem _ _ (stepIdx_lt ff positions h)]
  exact List.getElem_mem _

/-- Every lot of the post-step lot list is an original lot or the
selected lot with its quantity reduced. -/
theorem stepPositions_mem (remaining : ℚ) (positions : List Lot) (lot : Lot)
    (h : lot ∈ stepPositions ff remaining positions) :
    lot ∈ positions ∨
      lot = { stepLot ff positions with
        qty := (stepLot ff positions).qty - stepQty ff remaining positions } := by
  rw [stepPositions] at h
  split at h
  · exact Or.inl (List.eraseIdx_subset _ _ h)
  · exact List.mem_or_eq_of_mem_set h

/-- Predicate preservation through the closing loop: a property of lot
timestamps carries to the entry timestamps of all emitted pairs and to
all final lots. -/
theorem closeLoop_ts_pred (P : String → Prop) :
    ∀ (fuel : Nat) (remaining : ℚ) (positions : List Lot),
      (∀ lot ∈ positions, P lot.timestamp) →
      (∀ p ∈ (closeLoop ff bb sym tid price ts tf sid tq fuel remaining positions).1,
          P p.entry_timestamp) ∧
        ∀ lot ∈ (closeLoop ff bb sym tid price ts tf sid tq fuel remaining positions).2.1,
          P lot.timestamp
  | 0, remaining, positions, h => by
    rw [closeLoop_zero]
    exact ⟨fun p hp => absurd hp (List.not_mem_nil p), h⟩
  | fuel + 1, remaining, positions, h => by
    by_cases hc : eps < remaining ∧ positions ≠ []
    · rw [closeLoop_succ_pos ff bb sym tid price ts tf sid tq fuel remaining positions hc]
      have hstep : ∀ lot ∈ stepPositions ff remaining positions, P lot.timestamp := by
        intro lot hl
        rcases stepPositions_mem ff remaining positions lot hl with hl' | hl'
        · exact h lot hl'
        · rw [hl']
          exact (h _ (stepLot_mem ff positions hc.2) : P (stepLot ff positions).timestamp)
      obtain ⟨ih1, ih2⟩ := closeLoop_ts_pred P fuel
        (remaining - stepQty ff remaining positions)
        (stepPositions ff remaining positions) hstep
      refine ⟨fun p hp => ?_, ih2⟩
      rcases List.mem_cons.mp hp with hp | hp
      · rw [hp]; exact h _ (stepLot_mem ff positions hc.2)
      · exact ih1 p hp
    · rw [closeLoop_succ_neg ff bb sym tid price ts tf sid tq fuel remaining positions hc]
      exact ⟨fun p hp => absurd hp (List.not_mem_nil p), h⟩

end CloseLoop

/-! ## Small algebra of the summed quantities -/

@[simp] theorem pairsQty_nil : pairsQty [] = 0 := rfl

@[simp] theorem pairsQty_cons (p : PairedTrade) (l : List PairedTrade) :
    pairsQty (p :: l) = p.quantity + pairsQty l := by simp [pairsQty]

@[simp] theorem pairsEntryVal_nil : pairsEntryVal [] = 0 := rfl

@[simp] theorem pairsEntryVal_cons (p : PairedTrade) (l : List PairedTrade) :
    pairsEntryVal (p :: l) = p.entry_price * p.quantity + pairsEntryVal l := by
  simp [pairsEntryVal]

@[simp] theorem exitFeesTotal_nil : exitFeesTotal [] = 0 := rfl

@[simp] theorem exitFeesTotal_cons (p : PairedTrade) (l : List PairedTrade) :
    exitFeesTotal (p :: l) = p.exit_fees + exitFeesTotal l := by simp [exitFeesTotal]

@[simp] theorem grossTotal_nil : grossTotal [] = 0 := rfl

@[simp] theorem grossTotal_cons (p : PairedTrade) (l : List PairedTrade) :
    grossTotal (p :: l) = p.gross_profit_loss + grossTotal l := by simp [grossTotal]

@[simp] theorem grossTotal_append (l l' : List PairedTrade) :
    grossTotal (l ++ l') = grossTotal l + grossTotal l' := by simp [grossTotal]

@[simp] theorem netTotal_nil : netTotal [] = 0 := rfl

@[simp] theorem netTotal_cons (p : PairedTrade) (l : List PairedTrade) :
    netTotal (p :: l) = p.net_profit_loss + netTotal l := by simp [netTotal]

@[simp] theorem lotsQty_nil : lotsQty [] = 0 := rfl

@[simp] theorem lotsQty_cons (lot : Lot) (l : List Lot) :
    lotsQty (lot :: l) = lot.qty + lotsQty l := by simp [lotsQty]

@[simp] theorem lotsVal_nil : lotsVal [] = 0 := rfl

@[simp] theorem lotsVal_cons (lot : Lot) (l : List Lot) :
    lotsVal (lot :: l) = lot.price * lot.qty + lotsVal l := by simp [lotsVal]

theorem sum_map_eraseIdx {α : Type} [Inhabited α] (f : α → ℚ) :
    ∀ (l : List α) (i : Nat), i < l.length →
      ((l.eraseIdx i).map f).sum = (l.map f).sum - f (l.getD i default)
  | [], i, h => by simp at h
  | a :: l, 0, _ => by simp [List.eraseIdx]
  | a :: l, i + 1, h => by
    simp only [List.eraseIdx, List.map_cons, List.sum_cons, List.getD_cons_succ]
    rw [sum_map_eraseIdx f l i (by simpa using h)]
    ring

theorem sum_map_set {α : Type} [Inhabited α] (f : α → ℚ) :
    ∀ (l : List α) (i : Nat) (x : α), i < l.length →
      ((l.set i x).map f).sum = (l.map f).sum - f (l.getD i default) + f x
  | [], i, x, h => by simp at h
  | a :: l, 0, x, _ => by simp [List.set]; ring
  | a :: l, i + 1, x, h => by
    simp only [List.set, List.map_cons, List.sum_cons, List.getD_cons_succ]
    rw [sum_map_set f l i x (by simpa using h)]
    ring

theorem qNat_eq_zero {x : ℚ} (h : qNat x) (hle : ¬eps < x) : x = 0 := by
  obtain ⟨n, rfl⟩ := h
  rcases Nat.eq_zero_or_pos n with h0 | h1
  · simp [h0]
  · exfalso
    apply hle
    calc eps < 1 := by norm_num [eps]
    _ ≤ (n : ℚ) := by exact_mod_cast h1

theorem qNat_ge_one {x : ℚ} (h : qNat x) (hlt : eps < x) : ∃ n : ℕ, x = (n : ℚ) ∧ 1 ≤ n := by
  obtain ⟨n, rfl⟩ := h
  refine ⟨n, rfl, ?_⟩
  by_contra hn
  have : n = 0 := by omega
  subst this
  simp only [Nat.cast_zero] at hlt
  exact absurd hlt (by norm_num [eps])

/-! ## Aggregate behaviour of the closing loop -/

section CloseLoopSums

variable (ff bb : Bool) (sym : String) (tid : Int) (price : ℚ) (ts : String)
  (tf : ℚ) (sid : Option Int) (tq : ℚ)

/-- Every emitted pair satisfies any property shared by all step pairs. -/
theorem closeLoop_pairs_pred (P : PairedTrade → Prop)
    (hstep : ∀ (remaining : ℚ) (positions : List Lot),
      P (stepPair ff bb sym tid price ts tf sid tq remaining positions)) :
    ∀ (fuel : Nat) (remaining : ℚ) (positions : List Lot),
      ∀ p ∈ (closeLoop ff bb sym tid price ts tf sid tq fuel remaining positions).1, P p
  | 0, remaining, positions, p, hp => by
    rw [closeLoop_zero] at hp
    exact absurd hp (List.not_mem_nil p)
  | fuel + 1, remaining, positions, p, hp => by
    by_cases hc : eps < remaining ∧ positions ≠ []
    · rw [closeLoop_succ_pos ff bb sym tid price ts tf sid tq fuel remaining positions hc] at hp
      rcases List.mem_cons.mp hp with hp | hp
      · rw [hp]; exact hstep remaining positions
      · exact closeLoop_pairs_pred P hstep fuel _ _ p hp
    · rw [closeLoop_succ_neg ff bb sym tid price ts tf sid tq fuel remaining positions hc] at hp
      exact absurd hp (List.not_mem_nil p)

/-- Telescoping: total closed quantity equals consumed incoming quantity. -/
theorem closeLoop_qty_sum :
    ∀ (fuel : Nat) (remaining : ℚ) (positions : List Lot),
      pairsQty (closeLoop ff bb sym tid price ts tf sid tq fuel remaining positions).1 =
        remaining - (closeLoop ff bb sym tid price ts tf sid tq fuel remaining positions).2.2
  | 0, remaining, positions => by rw [closeLoop_zero]; simp
  | fuel + 1, remaining, positions => by
    by_cases hc : eps < remaining ∧ positions ≠ []
    · rw [closeLoop_succ_pos ff bb sym tid price ts tf sid tq fuel remaining positions hc]
      have ih := closeLoop_qty_sum fuel (remaining - stepQty ff remaining positions)
        (stepPositions ff remaining positions)
      simp only [pairsQty_cons, ih, stepPair]
      ring
    · rw [closeLoop_succ_neg ff bb sym tid price ts tf sid tq fuel remaining positions hc]
      simp

/-- Telescoping of the incoming trade's prorated fees: the exit-side fee
contributions of one incoming trade sum to its fee scaled by the closed
fraction of its total quantity. -/
theorem closeLoop_exit_fees :
    ∀ (fuel : Nat) (remaining : ℚ) (positions : List Lot),
      exitFeesTotal (closeLoop ff bb sym tid price ts tf sid tq fuel remaining positions).1 =
        tf * ((remaining -
          (closeLoop ff bb sym tid price ts tf sid tq fuel remaining positions).2.2) / tq)
  | 0, remaining, positions => by rw [closeLoop_zero]; simp
  | fuel + 1, remaining, positions => by
    by_cases hc : eps < remaining ∧ positions ≠ []
    · rw [closeLoop_succ_pos ff bb sym tid price ts tf sid tq fuel remaining positions hc]
      have ih := closeLoop_exit_fees fuel (remaining - stepQty ff remaining positions)
        (stepPositions ff remaining positions)
      simp only [exitFeesTotal_cons, ih, stepPair]
      ring
    · rw [closeLoop_succ_neg ff bb sym tid price ts tf sid tq fuel remaining positions hc]
      simp

end CloseLoopSums

section StepPairFields

variable (ff bb : Bool) (sym : String) (tid : Int) (price : ℚ) (ts : String)
  (tf : ℚ) (sid : Option Int) (tq : ℚ) (remaining : ℚ) (positions : List Lot)

@[simp] theorem stepPair_quantity :
    (stepPair ff bb sym tid price ts tf sid tq remaining positions).quantity =
      stepQty ff remaining positions := rfl

@[simp] theorem stepPair_entry_price :
    (stepPair ff bb sym tid price ts tf sid tq remaining positions).entry_price =
      (stepLot ff positions).price := rfl

@[simp] theorem stepPair_exit_price :
    (stepPair ff bb sym tid price ts tf sid tq remaining positions).exit_price = price := rfl

@[simp] theorem stepPair_symbol :
    (stepPair ff bb sym tid price ts tf sid tq remaining positions).symbol = sym := rfl

@[simp] theorem stepPair_entry_fees :
    (stepPair ff bb sym tid price ts tf sid tq remaining positions).entry_fees =
      (stepLot ff positions).fees *
        (stepQty ff remaining positions / (stepLot ff positions).qty) := rfl

@[simp] theorem stepPair_exit_fees :
    (stepPair ff bb sym tid price ts tf sid tq remaining positions).exit_fees =
      tf * (stepQty ff remaining positions / tq) := rfl

@[simp] theorem stepPair_gross :
    (stepPair ff bb sym tid price ts tf sid tq remaining positions).gross_profit_loss =
      (if bb then (stepLot ff positions).price - price
        else price - (stepLot ff positions).price) *
        stepQty ff remaining positions * options_multiplier sym := rfl

@[simp] theorem stepPair_net :
    (stepPair ff bb sym tid price ts tf sid tq remaining positions).net_profit_loss =
      ((if bb then (stepLot ff positions).price - price
          else price - (stepLot ff positions).price) * stepQty ff remaining positions -
        (stepLot ff positions).fees *
          (stepQty ff remaining positions / (stepLot ff positions).qty) -
        tf * (stepQty ff remaining positions / tq)) * options_multiplier sym := rfl

end StepPairFields

theorem natCast_lt_eps {k : ℕ} (h : (k : ℚ) < eps) : k = 0 := by
  by_contra hk
  have h1 : 1 ≤ k := by omega
  have : (1 : ℚ) ≤ (k : ℚ) := by exact_mod_cast h1
  have : (1 : ℚ) < eps := lt_of_le_of_lt this h
  norm_num [eps] at this

/-- With integral quantities the closing loop is exact: the final
residual is a natural number, the loop ends only with a zero residual or
an exhausted lot list, no quantity or value is lost to the epsilon, and
the final lots are again integral. -/
theorem closeLoop_int (ff bb : Bool) (sym : String) (tid : Int) (price : ℚ) (ts : String)
    (tf : ℚ) (sid : Option Int) (tq : ℚ) :
    ∀ (fuel : Nat) (remaining : ℚ) (positions : List Lot),
      positions.length < fuel → qNat remaining → (∀ lot ∈ positions, lotNat lot) →
      ((closeLoop ff bb sym tid price ts tf sid tq fuel remaining positions).2.2 = 0 ∨
          (closeLoop ff bb sym tid price ts tf sid tq fuel remaining positions).2.1 = []) ∧
        qNat (closeLoop ff bb sym tid price ts tf sid tq fuel remaining positions).2.2 ∧
        (∀ lot ∈ (closeLoop ff bb sym tid price ts tf sid tq fuel remaining positions).2.1,
          lotNat lot) ∧
        lotsQty (closeLoop ff bb sym tid price ts tf sid tq fuel remaining positions).2.1 =
          lotsQty positions -
            (remaining -
              (closeLoop ff bb sym tid price ts tf sid tq fuel remaining positions).2.2) ∧
        lotsVal (closeLoop ff bb sym tid price ts tf sid tq fuel remaining positions).2.1 =
          lotsVal positions -
            pairsEntryVal (closeLoop ff bb sym tid price ts tf sid tq fuel remaining positions).1
  | 0, remaining, positions, hlen, _, _ => absurd hlen (by omega)
  | fuel + 1, remaining, positions, hlen, hrem, hlots => by
    by_cases hc : eps < remaining ∧ positions ≠ []
    · rw [closeLoop_succ_pos ff bb sym tid price ts tf sid tq fuel remaining positions hc]
      obtain ⟨n, hn, hn1⟩ := qNat_ge_one hrem hc.1
      obtain ⟨m, hm, hm1⟩ := hlots _ (stepLot_mem ff positions hc.2)
      have hq : stepQty ff remaining positions = ((min n m : ℕ) : ℚ) := by
        rw [stepQty, hn, hm, Nat.cast_min]
      have hcast : ((m - min n m : ℕ) : ℚ) =
          (stepLot ff positions).qty - stepQty ff remaining positions := by
        rw [hm, hq]
        push_cast [Nat.min_le_right n m]
        ring
      by_cases hdel :
          (stepLot ff positions).qty - stepQty ff remaining positions < eps
      · -- the lot is removed: with integral quantities this means the
        -- step consumed the lot exactly
        have hmin : min n m = m := by
          have h0 : m - min n m = 0 := natCast_lt_eps (by rw [hcast]; exact hdel)
          omega
        have hlotq : (stepLot ff positions).qty = stepQty ff remaining positions := by
          rw [hm, hq, hmin]
        have hpos' : stepPositions ff remaining positions =
            positions.eraseIdx (stepIdx ff positions) := by
          rw [stepPositions, if_pos hdel]
        obtain ⟨ih0, ih1, ih2, ih3, ih4⟩ := closeLoop_int ff bb sym tid price ts tf sid tq
          fuel (remaining - stepQty ff remaining positions)
          (stepPositions ff remaining positions)
          (by
            rw [hpos', List.length_eraseIdx_of_lt (stepIdx_lt ff positions hc.2)]
            have := List.length_pos.mpr hc.2
            omega)
          (by
            refine ⟨n - min n m, ?_⟩
            rw [hq, hn]
            push_cast [Nat.min_le_left n m]
            ring)
          (by
            intro lot hl
            rw [hpos'] at hl
            exact hlots lot (List.eraseIdx_subset _ _ hl))
        have herase : lotsQty (stepPositions ff remaining positions) =
            lotsQty positions - (stepLot ff positions).qty := by
          rw [hpos']
          simpa [lotsQty, stepLot] using
            sum_map_eraseIdx Lot.qty positions (stepIdx ff positions)
              (stepIdx_lt ff positions hc.2)
        have heraseV : lotsVal (stepPositions ff remaining positions) =
            lotsVal positions - (stepLot ff positions).price * (stepLot ff positions).qty := by
          rw [hpos']
          simpa [lotsVal, stepLot] using
            sum_map_eraseIdx (fun lot => lot.price * lot.qty) positions
              (stepIdx ff positions) (stepIdx_lt ff positions hc.2)
        refine ⟨ih0, ih1, ih2, ?_, ?_⟩
        · show lotsQty (closeLoop ff bb sym tid price ts tf sid tq fuel
              (remaining - stepQty ff remaining positions)
              (stepPositions ff remaining positions)).2.1 = _
          rw [ih3, herase, hlotq]
          ring
        · show lotsVal (closeLoop ff bb sym tid price ts tf sid tq fuel
              (remaining - stepQty ff remaining positions)
              (stepPositions ff remaining positions)).2.1 =
            _ - pairsEntryVal (stepPair ff bb sym tid price ts tf sid tq remaining positions ::
              (closeLoop ff bb sym tid price ts tf sid tq fuel
                (remaining - stepQty ff remaining positions)
                (stepPositions ff remaining positions)).1)
          rw [ih4, heraseV, pairsEntryVal_cons, stepPair_entry_price, stepPair_quantity, hlotq]
          ring
      · -- the lot survives: the step consumed the whole incoming
        -- remainder, so the loop ends after this iteration
        have hmlt : min n m < m := by
          rcases Nat.eq_zero_or_pos (m - min n m) with h0 | h1
          · exfalso
            apply hdel
            rw [← hcast, h0]
            norm_num [eps]
          · omega
        have hminn : min n m = n := by omega
        have hq0 : remaining - stepQty ff remaining positions = 0 := by
          rw [hq, hn, hminn]; ring
        have hrec : closeLoop ff bb sym tid price ts tf sid tq fuel
            (remaining - stepQty ff remaining positions)
            (stepPositions ff remaining positions) =
            ([], stepPositions ff remaining positions,
              remaining - stepQty ff remaining positions) := by
          rw [hq0]
          cases fuel with
          | zero => exact closeLoop_zero ff bb sym tid price ts tf sid tq _ _
          | succ fuel' =>
            refine closeLoop_succ_neg ff bb sym tid price ts tf sid tq fuel' _ _ ?_
            rintro ⟨habs, -⟩
            norm_num [eps] at habs
        rw [hrec]
        have hset : stepPositions ff remaining positions =
            positions.set (stepIdx ff positions)
              { stepLot ff positions with
                qty := (stepLot ff positions).qty - stepQty ff remaining positions } := by
          rw [stepPositions, if_neg hdel]
        have hsetQ : lotsQty (stepPositions ff remaining positions) =
            lotsQty positions - stepQty ff remaining positions := by
          rw [hset]
          have h := sum_map_set Lot.qty positions (stepIdx ff positions)
            { stepLot ff positions with
              qty := (stepLot ff positions).qty - stepQty ff remaining positions }
            (stepIdx_lt ff positions hc.2)
          simp only [lotsQty, stepLot] at h ⊢
          rw [h]
          ring
        have hsetV : lotsVal (stepPositions ff remaining positions) =
            lotsVal positions -
              (stepLot ff positions).price * stepQty ff remaining positions := by
          rw [hset]
          have h := sum_map_set (fun lot => lot.price * lot.qty) positions
            (stepIdx ff positions)
            { stepLot ff positions with
              qty := (stepLot ff positions).qty - stepQty ff remaining positions }
            (stepIdx_lt ff positions hc.2)
          simp only [lotsVal, stepLot] at h ⊢
          rw [h]
          ring
        refine ⟨Or.inl hq0, hq0 ▸ ⟨0, by simp⟩, ?_, ?_, ?_⟩
        · intro lot hl
          rw [hset] at hl
          rcases List.mem_or_eq_of_mem_set hl with hl' | hl'
          · exact hlots lot hl'
          · refine ⟨m - n, ?_, by omega⟩
            rw [hl']
            show (stepLot ff positions).qty - stepQty ff remaining positions = _
            rw [hm, hq, hminn]
            push_cast [Nat.le_of_lt (hminn ▸ hmlt)]
            ring
        · show lotsQty (stepPositions ff remaining positions) =
            lotsQty positions - (remaining - (remaining - stepQty ff remaining positions))
          rw [hsetQ]
          ring
        · show lotsVal (stepPositions ff remaining positions) =
            lotsVal positions -
              pairsEntryVal [stepPair ff bb sym tid price ts tf sid tq remaining positions]
          rw [hsetV, pairsEntryVal_cons, pairsEntryVal_nil, stepPair_entry_price,
            stepPair_quantity]
          ring
    · rw [closeLoop_succ_neg ff bb sym tid price ts tf sid tq fuel remaining positions hc]
      rcases not_and_or.mp hc with hstop | hempty
      · exact ⟨Or.inl (qNat_eq_zero hrem hstop), hrem, hlots, by ring, by simp⟩
      · exact ⟨Or.inr (of_not_not hempty), hrem, hlots, by ring, by simp⟩

/-! ## Sums over the position maps -/

@[simp] theorem lotsQty_append (l l' : List Lot) :
    lotsQty (l ++ l') = lotsQty l + lotsQty l' := by simp [lotsQty]

@[simp] theorem lotsVal_append (l l' : List Lot) :
    lotsVal (l ++ l') = lotsVal l + lotsVal l' := by simp [lotsVal]

theorem mapQty_setPos (pm : List (String × List Lot)) (k : String) (lots lots' : List Lot)
    (sym : String) (h : lookupPos pm k = some lots) :
    mapQty (setPos pm k lots') sym =
      mapQty pm sym + (if k = sym then lotsQty lots' - lotsQty lots else 0) := by
  induction pm with
  | nil => simp [lookupPos] at h
  | cons e rest ih =>
    obtain ⟨k', l0⟩ := e
    by_cases hk : k' = k
    · subst hk
      rw [lookupPos, if_pos rfl] at h
      obtain rfl := Option.some.injEq .. |>.mp h
      rw [setPos, if_pos rfl, mapQty, mapQty]
      by_cases hs : k' = sym
      · rw [if_pos hs, if_pos hs, if_pos hs]
        ring
      · rw [if_neg hs, if_neg hs, if_neg hs]
        ring
    · rw [lookupPos, if_neg hk] at h
      rw [setPos, if_neg hk, mapQty, mapQty, ih h]
      ring

theorem mapVal_setPos (pm : List (String × List Lot)) (k : String) (lots lots' : List Lot)
    (h : lookupPos pm k = some lots) :
    mapVal (setPos pm k lots') =
      mapVal pm + options_multiplier k * (lotsVal lots' - lotsVal lots) := by
  induction pm with
  | nil => simp [lookupPos] at h
  | cons e rest ih =>
    obtain ⟨k', l0⟩ := e
    by_cases hk : k' = k
    · subst hk
      rw [lookupPos, if_pos rfl] at h
      obtain rfl := Option.some.injEq .. |>.mp h
      rw [setPos, if_pos rfl, mapVal, mapVal]
      ring
    · rw [lookupPos, if_neg hk] at h
      rw [setPos, if_neg hk, mapVal, mapVal, ih h]
      ring

theorem mapQty_pushLot (pm : List (String × List Lot)) (k : String) (lot : Lot)
    (sym : String) :
    mapQty (pushLot pm k lot) sym = mapQty pm sym + (if k = sym then lot.qty else 0) := by
  induction pm with
  | nil =>
    rw [pushLot, mapQty, mapQty, mapQty]
    by_cases hs : k = sym
    · simp [hs, lotsQty]
    · simp [hs]
  | cons e rest ih =>
    obtain ⟨k', l0⟩ := e
    by_cases hk : k' = k
    · subst hk
      rw [pushLot, if_pos rfl, mapQty, mapQty]
      by_cases hs : k' = sym
      · simp only [if_pos hs, lotsQty_append]
        simp [lotsQty]
        ring
      · simp only [if_neg hs]
        ring
    · rw [pushLot, if_neg hk, mapQty, mapQty, ih]
      ring

theorem mapVal_pushLot (pm : List (String × List Lot)) (k : String) (lot : Lot) :
    mapVal (pushLot pm k lot) =
      mapVal pm + options_multiplier k * (lot.price * lot.qty) := by
  induction pm with
  | nil =>
    rw [pushLot, mapVal, mapVal, mapVal]
    simp [lotsVal]
  | cons e rest ih =>
    obtain ⟨k', l0⟩ := e
    by_cases hk : k' = k
    · subst hk
      rw [pushLot, if_pos rfl, mapVal, mapVal, lotsVal_append]
      simp [lotsVal]
      ring
    · rw [pushLot, if_neg hk, mapVal, mapVal, ih]
      ring

theorem lookupPos_lots_mem (pm : List (String × List Lot)) (k : String)
    (lots : List Lot) (h : lookupPos pm k = some lots) :
    ∀ lot ∈ lots, lot ∈ mapLots pm := by
  induction pm with
  | nil => simp [lookupPos] at h
  | cons e rest ih =>
    obtain ⟨k', l0⟩ := e
    rw [lookupPos] at h
    split at h
    · obtain rfl := Option.some.injEq .. |>.mp h
      intro lot hl
      rw [mapLots]
      exact List.mem_append_left _ hl
    · intro lot hl
      rw [mapLots]
      exact List.mem_append_right _ (ih h lot hl)

theorem setPos_lots_mem (pm : List (String × List Lot)) (k : String) (lots' : List Lot) :
    ∀ lot ∈ mapLots (setPos pm k lots'), lot ∈ mapLots pm ∨ lot ∈ lots' := by
  induction pm with
  | nil => simp [setPos, mapLots]
  | cons e rest ih =>
    obtain ⟨k', l0⟩ := e
    rw [setPos]
    split
    · intro lot hl
      rw [mapLots] at hl
      rw [mapLots]
      rcases List.mem_append.mp hl with hl | hl
      · exact Or.inr hl
      · exact Or.inl (List.mem_append_right _ hl)
    · intro lot hl
      rw [mapLots] at hl
      rw [mapLots]
      rcases List.mem_append.mp hl with hl | hl
      · exact Or.inl (List.mem_append_left _ hl)
      · rcases ih lot hl with h' | h'
        · exact Or.inl (List.mem_append_right _ h')
        · exact Or.inr h'

theorem pushLot_lots_mem (pm : List (String × List Lot)) (k : String) (x : Lot) :
    ∀ lot ∈ mapLots (pushLot pm k x), lot ∈ mapLots pm ∨ lot = x := by
  induction pm with
  | nil =>
    intro lot hl
    simp [pushLot, mapLots] at hl
    exact Or.inr hl
  | cons e rest ih =>
    obtain ⟨k', l0⟩ := e
    rw [pushLot]
    split
    · intro lot hl
      rw [mapLots] at hl
      rw [mapLots]
      rcases List.mem_append.mp hl with hl | hl
      · rcases List.mem_append.mp hl with hl | hl
        · exact Or.inl (List.mem_append_left _ hl)
        · exact Or.inr (List.mem_singleton.mp hl)
      · exact Or.inl (List.mem_append_right _ hl)
    · intro lot hl
      rw [mapLots] at hl
      rw [mapLots]
      rcases List.mem_append.mp hl with hl | hl
      · exact Or.inl (List.mem_append_left _ hl)
      · rcases ih lot hl with h' | h'
        · exact Or.inl (List.mem_append_right _ h')
        · exact Or.inr h'

/-! ## Per-symbol pair sums and the uniform shape of emitted pairs -/

theorem pairsQtyTotal_cons (p : PairedTrade) (l : List PairedTrade) (sym : String) :
    pairsQtyTotal (p :: l) sym =
      (if p.symbol = sym then p.quantity else 0) + pairsQtyTotal l sym := by
  by_cases hs : p.symbol = sym
  · simp [pairsQtyTotal, List.filter_cons, hs]
  · simp [pairsQtyTotal, List.filter_cons, hs]

theorem pairsQtyTotal_append (l l' : List PairedTrade) (sym : String) :
    pairsQtyTotal (l ++ l') sym = pairsQtyTotal l sym + pairsQtyTotal l' sym := by
  simp [pairsQtyTotal, List.filter_append]

theorem pairsQtyTotal_all (s : String) :
    ∀ (l : List PairedTrade), (∀ p ∈ l, p.symbol = s) → ∀ sym,
      pairsQtyTotal l sym = if s = sym then pairsQty l else 0
  | [], _, sym => by simp [pairsQtyTotal]
  | p :: rest, h, sym => by
    rw [pairsQtyTotal_cons, pairsQty_cons,
      pairsQtyTotal_all s rest (fun q hq => h q (List.mem_cons_of_mem _ hq)) sym,
      h p (List.mem_cons_self p rest)]
    by_cases hs : s = sym
    · simp [hs]
    · simp [hs]

theorem grossTotal_shape (bb : Bool) (price M : ℚ) :
    ∀ pairs : List PairedTrade,
      (∀ p ∈ pairs, p.exit_price = price ∧
        p.gross_profit_loss =
          (if bb then p.entry_price - p.exit_price else p.exit_price - p.entry_price) *
            p.quantity * M) →
      grossTotal pairs =
        (if bb then pairsEntryVal pairs - price * pairsQty pairs
          else price * pairsQty pairs - pairsEntryVal pairs) * M
  | [], _ => by cases bb <;> simp
  | p :: rest, h => by
    have hp := h p (List.mem_cons_self p rest)
    have ih := grossTotal_shape bb price M rest fun q hq => h q (List.mem_cons_of_mem _ hq)
    rw [grossTotal_cons, pairsEntryVal_cons, pairsQty_cons, ih, hp.2, hp.1]
    cases bb
    · simp only [Bool.false_eq_true, if_false]
      ring
    · simp only [if_true]
      ring

/-- The uniform shape of every pair emitted by one run of the closing
loop: symbol, exit side, the gross-P&L formula, and the relation between
net, gross and the (multiplier-free) stored fees. -/
theorem closeLoop_pairs_shape (ff bb : Bool) (sym : String) (tid : Int) (price : ℚ)
    (ts : String) (tf : ℚ) (sid : Option Int) (tq : ℚ) (fuel : Nat) (remaining : ℚ)
    (positions : List Lot) :
    ∀ p ∈ (closeLoop ff bb sym tid price ts tf sid tq fuel remaining positions).1,
      p.symbol = sym ∧ p.exit_price = price ∧ p.exit_trade_id = tid ∧
        p.exit_timestamp = ts ∧
        p.gross_profit_loss =
          (if bb then p.entry_price - p.exit_price else p.exit_price - p.entry_price) *
            p.quantity * options_multiplier sym ∧
        p.net_profit_loss =
          p.gross_profit_loss - options_multiplier p.symbol * (p.entry_fees + p.exit_fees) := by
  refine closeLoop_pairs_pred ff bb sym tid price ts tf sid tq _ ?_ fuel remaining positions
  intro remaining positions
  refine ⟨rfl, rfl, rfl, rfl, rfl, ?_⟩
  simp only [stepPair_net, stepPair_gross, stepPair_entry_fees, stepPair_exit_fees,
    stepPair_symbol]
  ring

/-! ## Unfolding equations for `processTrade` and the per-trade step lemma -/

@[simp] theorem buyBalance_mk (a : List PairedTrade) (b c : List (String × List Lot))
    (sym : String) :
    buyBalance ⟨a, b, c⟩ sym = pairsQtyTotal a sym + mapQty b sym := rfl

@[simp] theorem sellBalance_mk (a : List PairedTrade) (b c : List (String × List Lot))
    (sym : String) :
    sellBalance ⟨a, b, c⟩ sym = pairsQtyTotal a sym + mapQty c sym := rfl

@[simp] theorem valBalance_mk (a : List PairedTrade) (b c : List (String × List Lot)) :
    valBalance ⟨a, b, c⟩ = grossTotal a - mapVal b + mapVal c := rfl

@[simp] theorem stateLots_mk (a : List PairedTrade) (b c : List (String × List Lot)) :
    stateLots ⟨a, b, c⟩ = mapLots b ++ mapLots c := rfl

theorem processTrade_buy_none (ff : Bool) (st : MatchState) (t : Trade)
    (hbuy : toUpperStr t.side = "BUY")
    (hlk : lookupPos st.short_positions t.symbol = none) :
    processTrade ff st t =
      ⟨st.paired_trades,
        pushLot st.long_positions t.symbol
          ⟨t.id.getD 0, t.quantity, t.price, t.timestamp, t.fees.getD 0, t.strategy_id⟩,
        st.short_positions⟩ := by
  simp only [processTrade, hbuy, hlk, if_true]

theorem processTrade_buy_some (ff : Bool) (st : MatchState) (t : Trade)
    (positions : List Lot) (hbuy : toUpperStr t.side = "BUY")
    (hlk : lookupPos st.short_positions t.symbol = some positions) :
    processTrade ff st t =
      ⟨st.paired_trades ++
          (closeLoop ff true t.symbol (t.id.getD 0) t.price t.timestamp (t.fees.getD 0)
            t.strategy_id t.quantity (positions.length + 1) t.quantity positions).1,
        (if eps < (closeLoop ff true t.symbol (t.id.getD 0) t.price t.timestamp
                (t.fees.getD 0) t.strategy_id t.quantity (positions.length + 1) t.quantity
                positions).2.2 then
          pushLot st.long_positions t.symbol
            ⟨t.id.getD 0,
              (closeLoop ff true t.symbol (t.id.getD 0) t.price t.timestamp (t.fees.getD 0)
                t.strategy_id t.quantity (positions.length + 1) t.quantity positions).2.2,
              t.price, t.timestamp,
              t.fees.getD 0 *
                ((closeLoop ff true t.symbol (t.id.getD 0) t.price t.timestamp
                  (t.fees.getD 0) t.strategy_id t.quantity (positions.length + 1) t.quantity
                  positions).2.2 / t.quantity),
              t.strategy_id⟩
        else st.long_positions),
        setPos st.short_positions t.symbol
          (closeLoop ff true t.symbol (t.id.getD 0) t.price t.timestamp (t.fees.getD 0)
            t.strategy_id t.quantity (positions.length + 1) t.quantity positions).2.1⟩ := by
  simp only [processTrade, hbuy, hlk, if_true]

theorem sell_ne_buy : ("SELL" : String) ≠ "BUY" := by decide

theorem buy_ne_sell : ("BUY" : String) ≠ "SELL" := by decide

theorem processTrade_sell_none (ff : Bool) (st : MatchState) (t : Trade)
    (hsell : toUpperStr t.side = "SELL")
    (hlk : lookupPos st.long_positions t.symbol = none) :
    processTrade ff st t =
      ⟨st.paired_trades, st.long_positions,
        pushLot st.short_positions t.symbol
          ⟨t.id.getD 0, t.quantity, t.price, t.timestamp, t.fees.getD 0, t.strategy_id⟩⟩ := by
  simp only [processTrade, hsell, hlk, if_neg sell_ne_buy, if_true]

theorem processTrade_sell_some (ff : Bool) (st : MatchState) (t : Trade)
    (positions : List Lot) (hsell : toUpperStr t.side = "SELL")
    (hlk : lookupPos st.long_positions t.symbol = some positions) :
    processTrade ff st t =
      ⟨st.paired_trades ++
          (closeLoop ff false t.symbol (t.id.getD 0) t.price t.timestamp (t.fees.getD 0)
            t.strategy_id t.quantity (positions.length + 1) t.quantity positions).1,
        setPos st.long_positions t.symbol
          (closeLoop ff false t.symbol (t.id.getD 0) t.price t.timestamp (t.fees.getD 0)
            t.strategy_id t.quantity (positions.length + 1) t.quantity positions).2.1,
        (if eps < (closeLoop ff false t.symbol (t.id.getD 0) t.price t.timestamp
                (t.fees.getD 0) t.strategy_id t.quantity (positions.length + 1) t.quantity
                positions).2.2 then
          pushLot st.short_positions t.symbol
            ⟨t.id.getD 0,
              (closeLoop ff false t.symbol (t.id.getD 0) t.price t.timestamp (t.fees.getD 0)
                t.strategy_id t.quantity (positions.length + 1) t.quantity positions).2.2,
              t.price, t.timestamp,
              t.fees.getD 0 *
                ((closeLoop ff false t.symbol (t.id.getD 0) t.price t.timestamp
                  (t.fees.getD 0) t.strategy_id t.quantity (positions.length + 1) t.quantity
                  positions).2.2 / t.quantity),
              t.strategy_id⟩
        else st.short_positions)⟩ := by
  simp only [processTrade, hsell, hlk, if_neg sell_ne_buy, if_true]

theorem processTrade_other (ff : Bool) (st : MatchState) (t : Trade)
    (hnb : toUpperStr t.side ≠ "BUY") (hns : toUpperStr t.side ≠ "SELL") :
    processTrade ff st t = st := by
  simp only [processTrade, if_neg hnb, if_neg hns]

/-- One processed trade moves each bookkeeping balance by exactly its
own contribution, and preserves integrality of the stored lots. -/
theorem processTrade_step (ff : Bool) (st : MatchState) (t : Trade)
    (hnat : stateNat st) (ht : ∃ n : ℕ, t.quantity = (n : ℚ) ∧ 1 ≤ n) :
    stateNat (processTrade ff st t) ∧
      (∀ sym, buyBalance (processTrade ff st t) sym =
        buyBalance st sym + sideDelta t "BUY" sym) ∧
      (∀ sym, sellBalance (processTrade ff st t) sym =
        sellBalance st sym + sideDelta t "SELL" sym) ∧
      valBalance (processTrade ff st t) = valBalance st + tradeDelta t := by
  obtain ⟨n, hqn, hn1⟩ := ht
  obtain ⟨pairs0, longs0, shorts0⟩ := st
  by_cases hbuy : toUpperStr t.side = "BUY"
  · rcases hlk : lookupPos shorts0 t.symbol with _ | positions
    · -- a BUY with no short entry for the symbol opens a long lot
      rw [processTrade_buy_none ff ⟨pairs0, longs0, shorts0⟩ t hbuy hlk]
      refine ⟨?_, ?_, ?_, ?_⟩
      · intro lot hl
        rw [stateLots_mk] at hl
        rcases List.mem_append.mp hl with hl | hl
        · rcases pushLot_lots_mem longs0 t.symbol _ lot hl with h' | h'
          · exact hnat lot (List.mem_append_left _ h')
          · exact ⟨n, by rw [h']; exact hqn, hn1⟩
        · exact hnat lot (List.mem_append_right _ hl)
      · intro sym
        have hmq : mapQty (pushLot longs0 t.symbol
            ⟨t.id.getD 0, t.quantity, t.price, t.timestamp, t.fees.getD 0, t.strategy_id⟩)
            sym = mapQty longs0 sym + (if t.symbol = sym then t.quantity else 0) := by
          rw [mapQty_pushLot]
        rw [buyBalance_mk, buyBalance_mk, hmq, sideDelta]
        by_cases hs : t.symbol = sym
        · simp only [if_pos hs, if_pos (show toUpperStr t.side = "BUY" ∧ t.symbol = sym from ⟨hbuy, hs⟩)]; ring
        · simp only [if_neg hs, if_neg (fun hcon : toUpperStr t.side = "BUY" ∧ t.symbol = sym => hs hcon.2)]; ring
      · intro sym
        rw [sellBalance_mk, sellBalance_mk, sideDelta,
          if_neg (fun hcon : toUpperStr t.side = "SELL" ∧ t.symbol = sym => buy_ne_sell (hbuy ▸ hcon.1))]
        ring
      · have hmv : mapVal (pushLot longs0 t.symbol
            ⟨t.id.getD 0, t.quantity, t.price, t.timestamp, t.fees.getD 0, t.strategy_id⟩) =
            mapVal longs0 + options_multiplier t.symbol * (t.price * t.quantity) := by
          rw [mapVal_pushLot]
        rw [valBalance_mk, valBalance_mk, hmv, tradeDelta, if_pos hbuy]
        ring
    · -- a BUY first closes short lots of the symbol
      rw [processTrade_buy_some ff ⟨pairs0, longs0, shorts0⟩ t positions hbuy hlk]
      have hlots : ∀ lot ∈ positions, lotNat lot := fun lot hl =>
        hnat lot (List.mem_append_right _
          (lookupPos_lots_mem shorts0 t.symbol positions hlk lot hl))
      obtain ⟨hzero, hqnat, hfinNat, hQ, hV⟩ := closeLoop_int ff true t.symbol (t.id.getD 0)
        t.price t.timestamp (t.fees.getD 0) t.strategy_id t.quantity
        (positions.length + 1) t.quantity positions (by omega) ⟨n, hqn⟩ hlots
      have hqsum := closeLoop_qty_sum ff true t.symbol (t.id.getD 0) t.price t.timestamp
        (t.fees.getD 0) t.strategy_id t.quantity (positions.length + 1) t.quantity positions
      have hshape := closeLoop_pairs_shape ff true t.symbol (t.id.getD 0) t.price
        t.timestamp (t.fees.getD 0) t.strategy_id t.quantity (positions.length + 1)
        t.quantity positions
      refine ⟨?_, ?_, ?_, ?_⟩
      · intro lot hl
        rw [stateLots_mk] at hl
        rcases List.mem_append.mp hl with hl | hl
        · by_cases hpush : eps < (closeLoop ff true t.symbol (t.id.getD 0) t.price
              t.timestamp (t.fees.getD 0) t.strategy_id t.quantity (positions.length + 1)
              t.quantity positions).2.2
          · rw [if_pos hpush] at hl
            rcases pushLot_lots_mem longs0 t.symbol _ lot hl with h' | h'
            · exact hnat lot (List.mem_append_left _ h')
            · obtain ⟨r, hr, hr1⟩ := qNat_ge_one hqnat hpush
              exact ⟨r, by rw [h']; exact hr, hr1⟩
          · rw [if_neg hpush] at hl
            exact hnat lot (List.mem_append_left _ hl)
        · rcases setPos_lots_mem shorts0 t.symbol _ lot hl with h' | h'
          · exact hnat lot (List.mem_append_right _ h')
          · exact hfinNat lot h'
      · intro sym
        rw [buyBalance_mk, buyBalance_mk, pairsQtyTotal_append,
          pairsQtyTotal_all t.symbol _ (fun p hp => (hshape p hp).1) sym, sideDelta]
        by_cases hpush : eps < (closeLoop ff true t.symbol (t.id.getD 0) t.price
            t.timestamp (t.fees.getD 0) t.strategy_id t.quantity (positions.length + 1)
            t.quantity positions).2.2
        · have hmq : mapQty (pushLot longs0 t.symbol
              ⟨t.id.getD 0,
                (closeLoop ff true t.symbol (t.id.getD 0) t.price t.timestamp
                  (t.fees.getD 0) t.strategy_id t.quantity (positions.length + 1)
                  t.quantity positions).2.2,
                t.price, t.timestamp,
                t.fees.getD 0 *
                  ((closeLoop ff true t.symbol (t.id.getD 0) t.price t.timestamp
                    (t.fees.getD 0) t.strategy_id t.quantity (positions.length + 1)
                    t.quantity positions).2.2 / t.quantity),
                t.strategy_id⟩) sym =
              mapQty longs0 sym +
                (if t.symbol = sym then
                  (closeLoop ff true t.symbol (t.id.getD 0) t.price t.timestamp
                    (t.fees.getD 0) t.strategy_id t.quantity (positions.length + 1)
                    t.quantity positions).2.2
                else 0) := by
            rw [mapQty_pushLot]
          rw [if_pos hpush, hmq, hqsum]
          by_cases hs : t.symbol = sym
          · simp only [if_pos hs, if_pos (show toUpperStr t.side = "BUY" ∧ t.symbol = sym from ⟨hbuy, hs⟩)]; ring
          · simp only [if_neg hs, if_neg (fun hcon : toUpperStr t.side = "BUY" ∧ t.symbol = sym => hs hcon.2)]; ring
        · rw [if_neg hpush, hqsum, qNat_eq_zero hqnat hpush]
          by_cases hs : t.symbol = sym
          · simp only [if_pos hs, if_pos (show toUpperStr t.side = "BUY" ∧ t.symbol = sym from ⟨hbuy, hs⟩)]; ring
          · simp only [if_neg hs, if_neg (fun hcon : toUpperStr t.side = "BUY" ∧ t.symbol = sym => hs hcon.2)]; ring
      · intro sym
        have hsv : mapQty (setPos shorts0 t.symbol
            (closeLoop ff true t.symbol (t.id.getD 0) t.price t.timestamp (t.fees.getD 0)
              t.strategy_id t.quantity (positions.length + 1) t.quantity positions).2.1)
            sym =
            mapQty shorts0 sym +
              (if t.symbol = sym then
                lotsQty (closeLoop ff true t.symbol (t.id.getD 0) t.price t.timestamp
                  (t.fees.getD 0) t.strategy_id t.quantity (positions.length + 1)
                  t.quantity positions).2.1 - lotsQty positions
              else 0) :=
          mapQty_setPos shorts0 t.symbol positions _ sym hlk
        rw [sellBalance_mk, sellBalance_mk, pairsQtyTotal_append,
          pairsQtyTotal_all t.symbol _ (fun p hp => (hshape p hp).1) sym, hsv, hQ, hqsum,
          sideDelta, if_neg (fun hcon : toUpperStr t.side = "SELL" ∧ t.symbol = sym => buy_ne_sell (hbuy ▸ hcon.1))]
        by_cases hs : t.symbol = sym
        · simp only [if_pos hs]; ring
        · simp only [if_neg hs]; ring
      · have hsv : mapVal (setPos shorts0 t.symbol
            (closeLoop ff true t.symbol (t.id.getD 0) t.price t.timestamp (t.fees.getD 0)
              t.strategy_id t.quantity (positions.length + 1) t.quantity positions).2.1) =
            mapVal shorts0 +
              options_multiplier t.symbol *
                (lotsVal (closeLoop ff true t.symbol (t.id.getD 0) t.price t.timestamp
                  (t.fees.getD 0) t.strategy_id t.quantity (positions.length + 1)
                  t.quantity positions).2.1 - lotsVal positions) :=
          mapVal_setPos shorts0 t.symbol positions _ hlk
        have hg : grossTotal (closeLoop ff true t.symbol (t.id.getD 0) t.price t.timestamp
            (t.fees.getD 0) t.strategy_id t.quantity (positions.length + 1)
            t.quantity positions).1 =
            (pairsEntryVal (closeLoop ff true t.symbol (t.id.getD 0) t.price t.timestamp
              (t.fees.getD 0) t.strategy_id t.quantity (positions.length + 1)
              t.quantity positions).1 -
              t.price * pairsQty (closeLoop ff true t.symbol (t.id.getD 0) t.price
                t.timestamp (t.fees.getD 0) t.strategy_id t.quantity
                (positions.length + 1) t.quantity positions).1) *
              options_multiplier t.symbol := by
          have h := grossTotal_shape true t.price (options_multiplier t.symbol) _
            fun p hp => ⟨(hshape p hp).2.1, (hshape p hp).2.2.2.2.1⟩
          rwa [if_pos rfl] at h
        rw [valBalance_mk, valBalance_mk, grossTotal_append, hg, hsv, hV, hqsum, tradeDelta,
          if_pos hbuy]
        by_cases hpush : eps < (closeLoop ff true t.symbol (t.id.getD 0) t.price
            t.timestamp (t.fees.getD 0) t.strategy_id t.quantity (positions.length + 1)
            t.quantity positions).2.2
        · have hmv : mapVal (pushLot longs0 t.symbol
              ⟨t.id.getD 0,
                (closeLoop ff true t.symbol (t.id.getD 0) t.price t.timestamp
                  (t.fees.getD 0) t.strategy_id t.quantity (positions.length + 1)
                  t.quantity positions).2.2,
                t.price, t.timestamp,
                t.fees.getD 0 *
                  ((closeLoop ff true t.symbol (t.id.getD 0) t.price t.timestamp
                    (t.fees.getD 0) t.strategy_id t.quantity (positions.length + 1)
                    t.quantity positions).2.2 / t.quantity),
                t.strategy_id⟩) =
              mapVal longs0 +
                options_multiplier t.symbol *
                  (t.price *
                    (closeLoop ff true t.symbol (t.id.getD 0) t.price t.timestamp
                      (t.fees.getD 0) t.strategy_id t.quantity (positions.length + 1)
                      t.quantity positions).2.2) := by
            rw [mapVal_pushLot]
          rw [if_pos hpush, hmv]
          ring
        · rw [if_neg hpush, qNat_eq_zero hqnat hpush]
          ring
  · by_cases hsell : toUpperStr t.side = "SELL"
    · rcases hlk : lookupPos longs0 t.symbol with _ | positions
      · -- a SELL with no long entry for the symbol opens a short lot
        rw [processTrade_sell_none ff ⟨pairs0, longs0, shorts0⟩ t hsell hlk]
        refine ⟨?_, ?_, ?_, ?_⟩
        · intro lot hl
          rw [stateLots_mk] at hl
          rcases List.mem_append.mp hl with hl | hl
          · exact hnat lot (List.mem_append_left _ hl)
          · rcases pushLot_lots_mem shorts0 t.symbol _ lot hl with h' | h'
            · exact hnat lot (List.mem_append_right _ h')
            · exact ⟨n, by rw [h']; exact hqn, hn1⟩
        · intro sym
          rw [buyBalance_mk, buyBalance_mk, sideDelta,
            if_neg (fun hcon : toUpperStr t.side = "BUY" ∧ t.symbol = sym => sell_ne_buy (hsell ▸ hcon.1))]
          ring
        · intro sym
          have hmq : mapQty (pushLot shorts0 t.symbol
              ⟨t.id.getD 0, t.quantity, t.price, t.timestamp, t.fees.getD 0,
                t.strategy_id⟩) sym =
              mapQty shorts0 sym + (if t.symbol = sym then t.quantity else 0) := by
            rw [mapQty_pushLot]
          rw [sellBalance_mk, sellBalance_mk, hmq, sideDelta]
          by_cases hs : t.symbol = sym
          · simp only [if_pos hs, if_pos (show toUpperStr t.side = "SELL" ∧ t.symbol = sym from ⟨hsell, hs⟩)]; ring
          · simp only [if_neg hs, if_neg (fun hcon : toUpperStr t.side = "SELL" ∧ t.symbol = sym => hs hcon.2)]; ring
        · have hmv : mapVal (pushLot shorts0 t.symbol
              ⟨t.id.getD 0, t.quantity, t.price, t.timestamp, t.fees.getD 0,
                t.strategy_id⟩) =
              mapVal shorts0 + options_multiplier t.symbol * (t.price * t.quantity) := by
            rw [mapVal_pushLot]
          rw [valBalance_mk, valBalance_mk, hmv, tradeDelta, if_neg hbuy, if_pos hsell]
          ring
      · -- a SELL first closes long lots of the symbol
        rw [processTrade_sell_some ff ⟨pairs0, longs0, shorts0⟩ t positions hsell hlk]
        have hlots : ∀ lot ∈ positions, lotNat lot := fun lot hl =>
          hnat lot (List.mem_append_left _
            (lookupPos_lots_mem longs0 t.symbol positions hlk lot hl))
        obtain ⟨hzero, hqnat, hfinNat, hQ, hV⟩ := closeLoop_int ff false t.symbol
          (t.id.getD 0) t.price t.timestamp (t.fees.getD 0) t.strategy_id t.quantity
          (positions.length + 1) t.quantity positions (by omega) ⟨n, hqn⟩ hlots
        have hqsum := closeLoop_qty_sum ff false t.symbol (t.id.getD 0) t.price t.timestamp
          (t.fees.getD 0) t.strategy_id t.quantity (positions.length + 1) t.quantity
          positions
        have hshape := closeLoop_pairs_shape ff false t.symbol (t.id.getD 0) t.price
          t.timestamp (t.fees.getD 0) t.strategy_id t.quantity (positions.length + 1)
          t.quantity positions
        refine ⟨?_, ?_, ?_, ?_⟩
        · intro lot hl
          rw [stateLots_mk] at hl
          rcases List.mem_append.mp hl with hl | hl
          · rcases setPos_lots_mem longs0 t.symbol _ lot hl with h' | h'
            · exact hnat lot (List.mem_append_left _ h')
            · exact hfinNat lot h'
          · by_cases hpush : eps < (closeLoop ff false t.symbol (t.id.getD 0) t.price
                t.timestamp (t.fees.getD 0) t.strategy_id t.quantity (positions.length + 1)
                t.quantity positions).2.2
            · rw [if_pos hpush] at hl
              rcases pushLot_lots_mem shorts0 t.symbol _ lot hl with h' | h'
              · exact hnat lot (List.mem_append_right _ h')
              · obtain ⟨r, hr, hr1⟩ := qNat_ge_one hqnat hpush
                exact ⟨r, by rw [h']; exact hr, hr1⟩
            · rw [if_neg hpush] at hl
              exact hnat lot (List.mem_append_right _ hl)
        · intro sym
          have hsv : mapQty (setPos longs0 t.symbol
              (closeLoop ff false t.symbol (t.id.getD 0) t.price t.timestamp
                (t.fees.getD 0) t.strategy_id t.quantity (positions.length + 1)
                t.quantity positions).2.1) sym =
              mapQty longs0 sym +
                (if t.symbol = sym then
                  lotsQty (closeLoop ff false t.symbol (t.id.getD 0) t.price t.timestamp
                    (t.fees.getD 0) t.strategy_id t.quantity (positions.length + 1)
                    t.quantity positions).2.1 - lotsQty positions
                else 0) :=
            mapQty_setPos longs0 t.symbol positions _ sym hlk
          rw [buyBalance_mk, buyBalance_mk, pairsQtyTotal_append,
            pairsQtyTotal_all t.symbol _ (fun p hp => (hshape p hp).1) sym, hsv, hQ, hqsum,
            sideDelta, if_neg (fun hcon : toUpperStr t.side = "BUY" ∧ t.symbol = sym => sell_ne_buy (hsell ▸ hcon.1))]
          by_cases hs : t.symbol = sym
          · simp only [if_pos hs]; ring
          · simp only [if_neg hs]; ring
        · intro sym
          rw [sellBalance_mk, sellBalance_mk, pairsQtyTotal_append,
            pairsQtyTotal_all t.symbol _ (fun p hp => (hshape p hp).1) sym, sideDelta]
          by_cases hpush : eps < (closeLoop ff false t.symbol (t.id.getD 0) t.price
              t.timestamp (t.fees.getD 0) t.strategy_id t.quantity (positions.length + 1)
              t.quantity positions).2.2
          · have hmq : mapQty (pushLot shorts0 t.symbol
                ⟨t.id.getD 0,
                  (closeLoop ff false t.symbol (t.id.getD 0) t.price t.timestamp
                    (t.fees.getD 0) t.strategy_id t.quantity (positions.length + 1)
                    t.quantity positions).2.2,
                  t.price, t.timestamp,
                  t.fees.getD 0 *
                    ((closeLoop ff false t.symbol (t.id.getD 0) t.price t.timestamp
                      (t.fees.getD 0) t.strategy_id t.quantity (positions.length + 1)
                      t.quantity positions).2.2 / t.quantity),
                  t.strategy_id⟩) sym =
                mapQty shorts0 sym +
                  (if t.symbol = sym then
                    (closeLoop ff false t.symbol (t.id.getD 0) t.price t.timestamp
                      (t.fees.getD 0) t.strategy_id t.quantity (positions.length + 1)
                      t.quantity positions).2.2
                  else 0) := by
              rw [mapQty_pushLot]
            rw [if_pos hpush, hmq, hqsum]
            by_cases hs : t.symbol = sym
            · simp only [if_pos hs, if_pos (show toUpperStr t.side = "SELL" ∧ t.symbol = sym from ⟨hsell, hs⟩)]; ring
            · simp only [if_neg hs, if_neg (fun hcon : toUpperStr t.side = "SELL" ∧ t.symbol = sym => hs hcon.2)]; ring
          · rw [if_neg hpush, hqsum, qNat_eq_zero hqnat hpush]
            by_cases hs : t.symbol = sym
            · simp only [if_pos hs, if_pos (show toUpperStr t.side = "SELL" ∧ t.symbol = sym from ⟨hsell, hs⟩)]; ring
            · simp only [if_neg hs, if_neg (fun hcon : toUpperStr t.side = "SELL" ∧ t.symbol = sym => hs hcon.2)]; ring
        · have hsv : mapVal (setPos longs0 t.symbol
              (closeLoop ff false t.symbol (t.id.getD 0) t.price t.timestamp
                (t.fees.getD 0) t.strategy_id t.quantity (positions.length + 1)
                t.quantity positions).2.1) =
              mapVal longs0 +
                options_multiplier t.symbol *
                  (lotsVal (closeLoop ff false t.symbol (t.id.getD 0) t.price t.timestamp
                    (t.fees.getD 0) t.strategy_id t.quantity (positions.length + 1)
                    t.quantity positions).2.1 - lotsVal positions) :=
            mapVal_setPos longs0 t.symbol positions _ hlk
          have hg : grossTotal (closeLoop ff false t.symbol (t.id.getD 0) t.price
              t.timestamp (t.fees.getD 0) t.strategy_id t.quantity (positions.length + 1)
              t.quantity positions).1 =
              (t.price * pairsQty (closeLoop ff false t.symbol (t.id.getD 0) t.price
                t.timestamp (t.fees.getD 0) t.strategy_id t.quantity
                (positions.length + 1) t.quantity positions).1 -
                pairsEntryVal (closeLoop ff false t.symbol (t.id.getD 0) t.price
                  t.timestamp (t.fees.getD 0) t.strategy_id t.quantity
                  (positions.length + 1) t.quantity positions).1) *
                options_multiplier t.symbol := by
            have h := grossTotal_shape false t.price (options_multiplier t.symbol) _
              fun p hp => ⟨(hshape p hp).2.1, (hshape p hp).2.2.2.2.1⟩
            rwa [if_neg (by simp)] at h
          rw [valBalance_mk, valBalance_mk, grossTotal_append, hg, hsv, hV, hqsum,
            tradeDelta, if_neg hbuy, if_pos hsell]
          by_cases hpush : eps < (closeLoop ff false t.symbol (t.id.getD 0) t.price
              t.timestamp (t.fees.getD 0) t.strategy_id t.quantity (positions.length + 1)
              t.quantity positions).2.2
          · have hmv : mapVal (pushLot shorts0 t.symbol
                ⟨t.id.getD 0,
                  (closeLoop ff false t.symbol (t.id.getD 0) t.price t.timestamp
                    (t.fees.getD 0) t.strategy_id t.quantity (positions.length + 1)
                    t.quantity positions).2.2,
                  t.price, t.timestamp,
                  t.fees.getD 0 *
                    ((closeLoop ff false t.symbol (t.id.getD 0) t.price t.timestamp
                      (t.fees.getD 0) t.strategy_id t.quantity (positions.length + 1)
                      t.quantity positions).2.2 / t.quantity),
                  t.strategy_id⟩) =
                mapVal shorts0 +
                  options_multiplier t.symbol *
                    (t.price *
                      (closeLoop ff false t.symbol (t.id.getD 0) t.price t.timestamp
                        (t.fees.getD 0) t.strategy_id t.quantity (positions.length + 1)
                        t.quantity positions).2.2) := by
              rw [mapVal_pushLot]
            rw [if_pos hpush, hmv]
            ring
          · rw [if_neg hpush, qNat_eq_zero hqnat hpush]
            ring
    · rw [processTrade_other ff ⟨pairs0, longs0, shorts0⟩ t hbuy hsell]
      refine ⟨hnat, fun sym => ?_, fun sym => ?_, ?_⟩
      · rw [sideDelta, if_neg fun hcon => hbuy hcon.1]; ring
      · rw [sideDelta, if_neg fun hcon => hsell hcon.1]; ring
      · rw [tradeDelta, if_neg hbuy, if_neg hsell]; ring

/-! ## Folding the whole trade list -/

theorem sideDeltaSum_cons (t : Trade) (rest : List Trade) (side sym : String) :
    sideDeltaSum (t :: rest) side sym =
      sideDelta t side sym + sideDeltaSum rest side sym := by
  rw [sideDeltaSum, List.map_cons, List.sum_cons]
  rfl

theorem tradeDeltaSum_cons (t : Trade) (rest : List Trade) :
    tradeDeltaSum (t :: rest) = tradeDelta t + tradeDeltaSum rest := by
  rw [tradeDeltaSum, List.map_cons, List.sum_cons]
  rfl

/-- The bookkeeping balances across the full fold of the sorted trade
list: each balance accumulates exactly the per-trade contributions. -/
theorem foldl_invariant (ff : Bool) :
    ∀ (l : List Trade) (st : MatchState),
      stateNat st → (∀ t ∈ l, ∃ n : ℕ, t.quantity = (n : ℚ) ∧ 1 ≤ n) →
      stateNat (l.foldl (processTrade ff) st) ∧
        (∀ sym, buyBalance (l.foldl (processTrade ff) st) sym =
          buyBalance st sym + sideDeltaSum l "BUY" sym) ∧
        (∀ sym, sellBalance (l.foldl (processTrade ff) st) sym =
          sellBalance st sym + sideDeltaSum l "SELL" sym) ∧
        valBalance (l.foldl (processTrade ff) st) = valBalance st + tradeDeltaSum l
  | [], st, hnat, _ => by
    refine ⟨hnat, fun sym => ?_, fun sym => ?_, ?_⟩ <;>
      simp [sideDeltaSum, tradeDeltaSum]
  | t :: rest, st, hnat, hint => by
    obtain ⟨h1, h2, h3, h4⟩ :=
      processTrade_step ff st t hnat (hint t (List.mem_cons_self t rest))
    obtain ⟨ih1, ih2, ih3, ih4⟩ := foldl_invariant ff rest (processTrade ff st t) h1
      fun u hu => hint u (List.mem_cons_of_mem _ hu)
    rw [List.foldl_cons]
    refine ⟨ih1, fun sym => ?_, fun sym => ?_, ?_⟩
    · rw [ih2 sym, h2 sym, sideDeltaSum_cons]; ring
    · rw [ih3 sym, h3 sym, sideDeltaSum_cons]; ring
    · rw [ih4, h4, tradeDeltaSum_cons]; ring

theorem sideQtyTotal_cons (t : Trade) (rest : List Trade) (side sym : String) :
    sideQtyTotal (t :: rest) side sym =
      (if toUpperStr t.side = side ∧ t.symbol = sym then t.quantity else 0) +
        sideQtyTotal rest side sym := by
  by_cases hc : toUpperStr t.side = side ∧ t.symbol = sym
  · simp [sideQtyTotal, List.filter_cons, hc]
  · simp [sideQtyTotal, List.filter_cons, hc]

theorem sideDeltaSum_eq (side sym : String) :
    ∀ l : List Trade, sideDeltaSum l side sym = sideQtyTotal l side sym
  | [] => by simp [sideDeltaSum, sideQtyTotal]
  | t :: rest => by
    rw [sideDeltaSum_cons, sideQtyTotal_cons, sideDeltaSum_eq side sym rest, sideDelta]

theorem sideQtyTotal_perm {l l' : List Trade} (h : l.Perm l') (side sym : String) :
    sideQtyTotal l side sym = sideQtyTotal l' side sym := by
  rw [sideQtyTotal, sideQtyTotal]
  exact ((h.filter _).map Trade.quantity).sum_eq

/-- Every pair emitted by a full matcher run satisfies any property
shared by all step pairs. -/
theorem foldl_pairs_pred (ff : Bool) (P : PairedTrade → Prop)
    (hstep : ∀ (bb : Bool) (sym : String) (tid : Int) (price : ℚ) (ts : String) (tf : ℚ)
      (sid : Option Int) (tq : ℚ) (remaining : ℚ) (positions : List Lot),
      P (stepPair ff bb sym tid price ts tf sid tq remaining positions)) :
    ∀ (l : List Trade) (st : MatchState),
      (∀ p ∈ st.paired_trades, P p) →
      ∀ p ∈ (l.foldl (processTrade ff) st).paired_trades, P p
  | [], st, h, p, hp => h p hp
  | t :: rest, st, h, p, hp => by
    rw [List.foldl_cons] at hp
    refine foldl_pairs_pred ff P hstep rest (processTrade ff st t) ?_ p hp
    intro q hq
    clear hp p
    obtain ⟨pairs0, longs0, shorts0⟩ := st
    by_cases hbuy : toUpperStr t.side = "BUY"
    · rcases hlk : lookupPos shorts0 t.symbol with _ | positions
      · rw [processTrade_buy_none ff ⟨pairs0, longs0, shorts0⟩ t hbuy hlk] at hq
        exact h q hq
      · rw [processTrade_buy_some ff ⟨pairs0, longs0, shorts0⟩ t positions hbuy hlk] at hq
        rcases List.mem_append.mp hq with hq | hq
        · exact h q hq
        · exact closeLoop_pairs_pred ff true t.symbol (t.id.getD 0) t.price t.timestamp
            (t.fees.getD 0) t.strategy_id t.quantity P
            (fun r ps => hstep true t.symbol (t.id.getD 0) t.price t.timestamp
              (t.fees.getD 0) t.strategy_id t.quantity r ps) _ _ _ q hq
    · by_cases hsell : toUpperStr t.side = "SELL"
      · rcases hlk : lookupPos longs0 t.symbol with _ | positions
        · rw [processTrade_sell_none ff ⟨pairs0, longs0, shorts0⟩ t hsell hlk] at hq
          exact h q hq
        · rw [processTrade_sell_some ff ⟨pairs0, longs0, shorts0⟩ t positions hsell hlk]
            at hq
          rcases List.mem_append.mp hq with hq | hq
          · exact h q hq
          · exact closeLoop_pairs_pred ff false t.symbol (t.id.getD 0) t.price t.timestamp
              (t.fees.getD 0) t.strategy_id t.quantity P
              (fun r ps => hstep false t.symbol (t.id.getD 0) t.price t.timestamp
                (t.fees.getD 0) t.strategy_id t.quantity r ps) _ _ _ q hq
      · rw [processTrade_other ff ⟨pairs0, longs0, shorts0⟩ t hbuy hsell] at hq
        exact h q hq

/-! ## The emitted synthetic open trades carry exactly the residual lots -/

theorem eps_lt_of_lotNat {lot : Lot} (h : lotNat lot) : eps < lot.qty := by
  obtain ⟨n, hn, h1⟩ := h
  rw [hn]
  calc eps < 1 := by norm_num [eps]
  _ ≤ (n : ℚ) := by exact_mod_cast h1

/-- With integral lots (all above the epsilon) the open-trade emission
keeps every lot. -/
theorem openTradesFor_eq_map (side k : String) :
    ∀ lots : List Lot, (∀ lot ∈ lots, lotNat lot) →
      openTradesFor side (k, lots) = lots.map fun lot =>
        ⟨some lot.id, k, side, lot.qty, lot.price, lot.timestamp, "OPEN", "OPEN",
          some lot.fees, none, lot.strategy_id⟩
  | [], _ => rfl
  | lot :: rest, h => by
    have hl := eps_lt_of_lotNat (h lot (List.mem_cons_self lot rest))
    have ih := openTradesFor_eq_map side k rest fun u hu => h u (List.mem_cons_of_mem _ hu)
    show List.filterMap _ (lot :: rest) = _
    rw [List.filterMap_cons, if_pos hl, List.map_cons]
    show _ :: openTradesFor side (k, rest) = _
    rw [ih]

theorem openQtyTotal_append (side sym : String) :
    ∀ l l' : List Trade,
      openQtyTotal (l ++ l') side sym = openQtyTotal l side sym + openQtyTotal l' side sym
  | [], l' => by rw [List.nil_append, openQtyTotal]; ring
  | t :: rest, l' => by
    rw [List.cons_append, openQtyTotal, openQtyTotal, openQtyTotal_append side sym rest l']
    ring

theorem openQtyTotal_openTradesFor (side side' k sym : String) (lots : List Lot)
    (h : ∀ lot ∈ lots, lotNat lot) :
    openQtyTotal (openTradesFor side (k, lots)) side' sym =
      if side = side' ∧ k = sym then lotsQty lots else 0 := by
  rw [openTradesFor_eq_map side k lots h]
  clear h
  induction lots with
  | nil => simp [openQtyTotal]
  | cons lot rest ih =>
    rw [List.map_cons, openQtyTotal, ih, lotsQty_cons]
    by_cases hc : side = side' ∧ k = sym
    · simp [hc.1, hc.2]
    · simp [hc]

/-- Whole-map version: the flattened open trades of one side account
for exactly the per-symbol residual quantity of the map. -/
theorem openQtyTotal_flat (side side' sym : String) :
    ∀ pm : List (String × List Lot), (∀ lot ∈ mapLots pm, lotNat lot) →
      openQtyTotal ((pm.map (openTradesFor side)).flatten) side' sym =
        if side = side' then mapQty pm sym else 0
  | [], _ => by simp [openQtyTotal, mapQty]
  | (k, lots) :: rest, h => by
    rw [List.map_cons, List.flatten_cons, openQtyTotal_append,
      openQtyTotal_openTradesFor side side' k sym lots
        (fun lot hl => h lot (List.mem_append_left _ hl)),
      openQtyTotal_flat side side' sym rest
        (fun lot hl => h lot (List.mem_append_right _ hl)),
      mapQty]
    by_cases hss : side = side'
    · by_cases hks : k = sym
      · simp [hss, hks]
      · simp [hss, hks]
    · simp [hss]

/-- If the emitted open-trade list of a map is empty and its lots are
integral, the map holds no lots at all. -/
theorem map_lots_nil_of_opens_nil (side : String) :
    ∀ pm : List (String × List Lot), (∀ lot ∈ mapLots pm, lotNat lot) →
      ((pm.map (openTradesFor side)).flatten = ([] : List Trade)) →
      ∀ e ∈ pm, e.2 = []
  | [], _, _ => by simp
  | (k, lots) :: rest, h, hnil => by
    rw [List.map_cons, List.flatten_cons, List.append_eq_nil] at hnil
    have hlots : lots = [] := by
      cases lots with
      | nil => rfl
      | cons lot rest' =>
        exfalso
        have hl := eps_lt_of_lotNat (h lot (List.mem_append_left _
          (List.mem_cons_self lot rest')))
        have : openTradesFor side (k, lot :: rest') ≠ [] := by
          show List.filterMap _ (lot :: rest') ≠ []
          rw [List.filterMap_cons, if_pos hl]
          exact List.cons_ne_nil _ _
        exact this hnil.1
    intro e he
    rcases List.mem_cons.mp he with he | he
    · rw [he, hlots]
    · exact map_lots_nil_of_opens_nil side rest
        (fun lot hl => h lot (List.mem_append_right _ hl)) hnil.2 e he

theorem mapVal_eq_zero_of_empty :
    ∀ pm : List (String × List Lot), (∀ e ∈ pm, e.2 = []) → mapVal pm = 0
  | [], _ => rfl
  | (k, lots) :: rest, h => by
    have h0 : lots = [] := h (k, lots) (List.mem_cons_self _ _)
    rw [mapVal, h0, mapVal_eq_zero_of_empty rest
      (fun e he => h e (List.mem_cons_of_mem _ he))]
    simp [lotsVal]

/-! ## Assembled facts about a full `pair_trades` run -/

theorem pair_trades_fst (trades : List Trade) (ff : Bool)
    (iter : List (String × List Lot) → List (String × List Lot)) :
    (pair_trades trades ff iter).1 =
      ((List.insertionSort (fun a b : Trade => strLe a.timestamp b.timestamp = true)
        trades).foldl (processTrade ff) ⟨[], [], []⟩).paired_trades := rfl

theorem pair_trades_snd (trades : List Trade) (ff : Bool)
    (iter : List (String × List Lot) → List (String × List Lot)) :
    (pair_trades trades ff iter).2 =
      ((iter ((List.insertionSort
          (fun a b : Trade => strLe a.timestamp b.timestamp = true) trades).foldl
          (processTrade ff) ⟨[], [], []⟩).long_positions).map (openTradesFor "BUY")).flatten
        ++
        ((iter ((List.insertionSort
          (fun a b : Trade => strLe a.timestamp b.timestamp = true) trades).foldl
          (processTrade ff) ⟨[], [], []⟩).short_positions).map
            (openTradesFor "SELL")).flatten := rfl

theorem stateNat_init : stateNat ⟨[], [], []⟩ := by
  intro lot hl
  simp [stateLots, mapLots] at hl

theorem sorted_int (trades : List Trade)
    (hqty : ∀ t ∈ trades, ∃ n : ℕ, t.quantity = (n : ℚ) ∧ 1 ≤ n) :
    ∀ t ∈ List.insertionSort (fun a b : Trade => strLe a.timestamp b.timestamp = true)
      trades, ∃ n : ℕ, t.quantity = (n : ℚ) ∧ 1 ≤ n :=
  fun t ht => hqty t ((List.perm_insertionSort _ trades).mem_iff.mp ht)

/-- The three balances of a full run, with the empty initial state. -/
theorem pair_trades_balances (trades : List Trade) (ff : Bool)
    (hqty : ∀ t ∈ trades, ∃ n : ℕ, t.quantity = (n : ℚ) ∧ 1 ≤ n) :
    stateNat ((List.insertionSort
        (fun a b : Trade => strLe a.timestamp b.timestamp = true) trades).foldl
        (processTrade ff) ⟨[], [], []⟩) ∧
      (∀ sym, buyBalance ((List.insertionSort
        (fun a b : Trade => strLe a.timestamp b.timestamp = true) trades).foldl
        (processTrade ff) ⟨[], [], []⟩) sym = sideQtyTotal trades "BUY" sym) ∧
      (∀ sym, sellBalance ((List.insertionSort
        (fun a b : Trade => strLe a.timestamp b.timestamp = true) trades).foldl
        (processTrade ff) ⟨[], [], []⟩) sym = sideQtyTotal trades "SELL" sym) ∧
      valBalance ((List.insertionSort
        (fun a b : Trade => strLe a.timestamp b.timestamp = true) trades).foldl
        (processTrade ff) ⟨[], [], []⟩) =
        tradeDeltaSum (List.insertionSort
          (fun a b : Trade => strLe a.timestamp b.timestamp = true) trades) := by
  obtain ⟨h1, h2, h3, h4⟩ := foldl_invariant ff
    (List.insertionSort (fun a b : Trade => strLe a.timestamp b.timestamp = true) trades)
    ⟨[], [], []⟩ stateNat_init (sorted_int trades hqty)
  refine ⟨h1, fun sym => ?_, fun sym => ?_, ?_⟩
  · rw [h2 sym, sideDeltaSum_eq,
      sideQtyTotal_perm (List.perm_insertionSort _ trades) "BUY" sym]
    simp [pairsQtyTotal, mapQty]
  · rw [h3 sym, sideDeltaSum_eq,
      sideQtyTotal_perm (List.perm_insertionSort _ trades) "SELL" sym]
    simp [pairsQtyTotal, mapQty]
  · rw [h4]
    simp [mapVal]

/-! ## Entry timestamps never exceed exit timestamps -/

/-- One step of the timestamp invariant: after processing `t`, all
stored lots still date from no later than every upcoming trade, and all
emitted pairs close no earlier than they opened. -/
theorem processTrade_ts (ff : Bool) (st : MatchState) (t : Trade) (rest : List Trade)
    (hhead : ∀ u ∈ rest, strLe t.timestamp u.timestamp = true)
    (hlots : ∀ lot ∈ stateLots st, ∀ u ∈ t :: rest, strLe lot.timestamp u.timestamp = true)
    (hp : ∀ p ∈ st.paired_trades, strLe p.entry_timestamp p.exit_timestamp = true) :
    (∀ lot ∈ stateLots (processTrade ff st t), ∀ u ∈ rest,
        strLe lot.timestamp u.timestamp = true) ∧
      ∀ p ∈ (processTrade ff st t).paired_trades,
        strLe p.entry_timestamp p.exit_timestamp = true := by
  obtain ⟨pairs0, longs0, shorts0⟩ := st
  have hlotsRest : ∀ lot ∈ stateLots ⟨pairs0, longs0, shorts0⟩, ∀ u ∈ rest,
      strLe lot.timestamp u.timestamp = true :=
    fun lot hl u hu => hlots lot hl u (List.mem_cons_of_mem _ hu)
  have hlotsT : ∀ lot ∈ stateLots ⟨pairs0, longs0, shorts0⟩,
      strLe lot.timestamp t.timestamp = true :=
    fun lot hl => hlots lot hl t (List.mem_cons_self t rest)
  by_cases hbuy : toUpperStr t.side = "BUY"
  · rcases hlk : lookupPos shorts0 t.symbol with _ | positions
    · rw [processTrade_buy_none ff ⟨pairs0, longs0, shorts0⟩ t hbuy hlk]
      refine ⟨?_, hp⟩
      intro lot hl u hu
      rw [stateLots_mk] at hl
      rcases List.mem_append.mp hl with hl | hl
      · rcases pushLot_lots_mem longs0 t.symbol _ lot hl with h' | h'
        · exact hlotsRest lot (List.mem_append_left _ h') u hu
        · rw [h']; exact hhead u hu
      · exact hlotsRest lot (List.mem_append_right _ hl) u hu
    · rw [processTrade_buy_some ff ⟨pairs0, longs0, shorts0⟩ t positions hbuy hlk]
      have hposT : ∀ lot ∈ positions, strLe lot.timestamp t.timestamp = true :=
        fun lot hl => hlotsT lot (List.mem_append_right _
          (lookupPos_lots_mem shorts0 t.symbol positions hlk lot hl))
      have hposR : ∀ lot ∈ positions, ∀ u ∈ rest, strLe lot.timestamp u.timestamp = true :=
        fun lot hl => hlotsRest lot (List.mem_append_right _
          (lookupPos_lots_mem shorts0 t.symbol positions hlk lot hl))
      obtain ⟨hpairT, _⟩ := closeLoop_ts_pred ff true t.symbol (t.id.getD 0) t.price
        t.timestamp (t.fees.getD 0) t.strategy_id t.quantity
        (fun ts => strLe ts t.timestamp = true) (positions.length + 1) t.quantity
        positions hposT
      obtain ⟨_, hfinR⟩ := closeLoop_ts_pred ff true t.symbol (t.id.getD 0) t.price
        t.timestamp (t.fees.getD 0) t.strategy_id t.quantity
        (fun ts => ∀ u ∈ rest, strLe ts u.timestamp = true) (positions.length + 1)
        t.quantity positions hposR
      have hshape := closeLoop_pairs_shape ff true t.symbol (t.id.getD 0) t.price
        t.timestamp (t.fees.getD 0) t.strategy_id t.quantity (positions.length + 1)
        t.quantity positions
      constructor
      · intro lot hl u hu
        rw [stateLots_mk] at hl
        rcases List.mem_append.mp hl with hl | hl
        · by_cases hpush : eps < (closeLoop ff true t.symbol (t.id.getD 0) t.price
              t.timestamp (t.fees.getD 0) t.strategy_id t.quantity (positions.length + 1)
              t.quantity positions).2.2
          · rw [if_pos hpush] at hl
            rcases pushLot_lots_mem longs0 t.symbol _ lot hl with h' | h'
            · exact hlotsRest lot (List.mem_append_left _ h') u hu
            · rw [h']; exact hhead u hu
          · rw [if_neg hpush] at hl
            exact hlotsRest lot (List.mem_append_left _ hl) u hu
        · rcases setPos_lots_mem shorts0 t.symbol _ lot hl with h' | h'
          · exact hlotsRest lot (List.mem_append_right _ h') u hu
          · exact hfinR lot h' u hu
      · intro p hmem
        rcases List.mem_append.mp hmem with hmem | hmem
        · exact hp p hmem
        · rw [(hshape p hmem).2.2.2.1]
          exact hpairT p hmem
  · by_cases hsell : toUpperStr t.side = "SELL"
    · rcases hlk : lookupPos longs0 t.symbol with _ | positions
      · rw [processTrade_sell_none ff ⟨pairs0, longs0, shorts0⟩ t hsell hlk]
        refine ⟨?_, hp⟩
        intro lot hl u hu
        rw [stateLots_mk] at hl
        rcases List.mem_append.mp hl with hl | hl
        · exact hlotsRest lot (List.mem_append_left _ hl) u hu
        · rcases pushLot_lots_mem shorts0 t.symbol _ lot hl with h' | h'
          · exact hlotsRest lot (List.mem_append_right _ h') u hu
          · rw [h']; exact hhead u hu
      · rw [processTrade_sell_some ff ⟨pairs0, longs0, shorts0⟩ t positions hsell hlk]
        have hposT : ∀ lot ∈ positions, strLe lot.timestamp t.timestamp = true :=
          fun lot hl => hlotsT lot (List.mem_append_left _
            (lookupPos_lots_mem longs0 t.symbol positions hlk lot hl))
        have hposR : ∀ lot ∈ positions, ∀ u ∈ rest,
            strLe lot.timestamp u.timestamp = true :=
          fun lot hl => hlotsRest lot (List.mem_append_left _
            (lookupPos_lots_mem longs0 t.symbol positions hlk lot hl))
        obtain ⟨hpairT, _⟩ := closeLoop_ts_pred ff false t.symbol (t.id.getD 0) t.price
          t.timestamp (t.fees.getD 0) t.strategy_id t.quantity
          (fun ts => strLe ts t.timestamp = true) (positions.length + 1) t.quantity
          positions hposT
        obtain ⟨_, hfinR⟩ := closeLoop_ts_pred ff false t.symbol (t.id.getD 0) t.price
          t.timestamp (t.fees.getD 0) t.strategy_id t.quantity
          (fun ts => ∀ u ∈ rest, strLe ts u.timestamp = true) (positions.length + 1)
          t.quantity positions hposR
        have hshape := closeLoop_pairs_shape ff false t.symbol (t.id.getD 0) t.price
          t.timestamp (t.fees.getD 0) t.strategy_id t.quantity (positions.length + 1)
          t.quantity positions
        constructor
        · intro lot hl u hu
          rw [stateLots_mk] at hl
          rcases List.mem_append.mp hl with hl | hl
          · rcases setPos_lots_mem longs0 t.symbol _ lot hl with h' | h'
            · exact hlotsRest lot (List.mem_append_left _ h') u hu
            · exact hfinR lot h' u hu
          · by_cases hpush : eps < (closeLoop ff false t.symbol (t.id.getD 0) t.price
                t.timestamp (t.fees.getD 0) t.strategy_id t.quantity
                (positions.length + 1) t.quantity positions).2.2
            · rw [if_pos hpush] at hl
              rcases pushLot_lots_mem shorts0 t.symbol _ lot hl with h' | h'
              · exact hlotsRest lot (List.mem_append_right _ h') u hu
              · rw [h']; exact hhead u hu
            · rw [if_neg hpush] at hl
              exact hlotsRest lot (List.mem_append_right _ hl) u hu
        · intro p hmem
          rcases List.mem_append.mp hmem with hmem | hmem
          · exact hp p hmem
          · rw [(hshape p hmem).2.2.2.1]
            exact hpairT p hmem
    · rw [processTrade_other ff ⟨pairs0, longs0, shorts0⟩ t hbuy hsell]
      exact ⟨fun lot hl u hu => hlotsRest lot hl u hu, hp⟩

theorem foldl_ts (ff : Bool) :
    ∀ (l : List Trade) (st : MatchState),
      List.Pairwise (fun a b : Trade => strLe a.timestamp b.timestamp = true) l →
      (∀ lot ∈ stateLots st, ∀ u ∈ l, strLe lot.timestamp u.timestamp = true) →
      (∀ p ∈ st.paired_trades, strLe p.entry_timestamp p.exit_timestamp = true) →
      ∀ p ∈ (l.foldl (processTrade ff) st).paired_trades,
        strLe p.entry_timestamp p.exit_timestamp = true
  | [], _, _, _, hp, p, hmem => hp p hmem
  | t :: rest, st, hsorted, hlots, hp, p, hmem => by
    rw [List.foldl_cons] at hmem
    obtain ⟨hhead, htail⟩ := List.pairwise_cons.mp hsorted
    obtain ⟨h1, h2⟩ := processTrade_ts ff st t rest
      (fun u hu => hhead u hu) hlots hp
    exact foldl_ts ff rest (processTrade ff st t) htail h1 h2 p hmem

/-! ## Date filtering -/

theorem filterPairsByDate_mem (pairs : List PairedTrade) (a b : String) (p : PairedTrade) :
    p ∈ filterPairsByDate pairs (some a) (some b) ↔
      p ∈ pairs ∧ strLe a p.exit_timestamp = true ∧ strLe p.exit_timestamp b = true := by
  rw [filterPairsByDate]
  simp [List.mem_filter]

/-! ## Profit factor -/

theorem totalLoss_nonneg (pairs : List PairedTrade) : 0 ≤ totalLoss pairs := by
  rw [totalLoss]
  refine List.sum_nonneg ?_
  intro x hx
  simp only [List.mem_map] at hx
  obtain ⟨y, _, rfl⟩ := hx
  exact abs_nonneg y

theorem totalLoss_eq_zero (pairs : List PairedTrade)
    (h : ∀ p ∈ pairs, ¬p.net_profit_loss < 0) : totalLoss pairs = 0 := by
  rw [totalLoss]
  have : (pairs.map PairedTrade.net_profit_loss).filter (fun x => decide (x < 0)) = [] := by
    rw [List.filter_eq_nil_iff]
    intro x hx
    simp only [List.mem_map] at hx
    obtain ⟨p, hp, rfl⟩ := hx
    simpa using h p hp
  rw [this]
  rfl

theorem totalProfit_pos (pairs : List PairedTrade) (p : PairedTrade) (hp : p ∈ pairs)
    (hwin : 0 < p.net_profit_loss) : 0 < totalProfit pairs := by
  rw [totalProfit]
  refine List.sum_pos _ ?_ ?_
  · intro x hx
    simp only [List.mem_filter, decide_eq_true_eq] at hx
    exact hx.2
  · refine List.ne_nil_of_mem (a := p.net_profit_loss) ?_
    rw [List.mem_filter]
    exact ⟨List.mem_map_of_mem _ hp, by simpa using hwin⟩

theorem totalProfit_eq_zero (pairs : List PairedTrade)
    (h : ∀ p ∈ pairs, ¬0 < p.net_profit_loss) : totalProfit pairs = 0 := by
  rw [totalProfit]
  have : (pairs.map PairedTrade.net_profit_loss).filter (fun x => decide (0 < x)) = [] := by
    rw [List.filter_eq_nil_iff]
    intro x hx
    simp only [List.mem_map] at hx
    obtain ⟨p, hp, rfl⟩ := hx
    simpa using h p hp
  rw [this]
  rfl

/-! ## Tilt streak samples -/

theorem afterKLossesIdx_mem (pnl : List ℚ) (k i : Nat) :
    i ∈ afterKLossesIdx pnl k ↔
      k ≤ i ∧ i < pnl.length ∧ (∀ j, i - k ≤ j → j < i → pnl.getD j 0 < 0) ∧
        pnl.getD i 0 ≠ 0 := by
  rw [afterKLossesIdx]
  rw [List.mem_filter, List.mem_range'_1]
  constructor
  · rintro ⟨⟨hk, hlt⟩, hcond⟩
    simp only [Bool.and_eq_true, List.all_eq_true, decide_eq_true_eq] at hcond
    refine ⟨hk, by omega, ?_, hcond.2⟩
    intro j hj1 hj2
    exact hcond.1 j (List.mem_range'_1.mpr ⟨hj1, by omega⟩)
  · rintro ⟨hk, hlt, hloss, hnz⟩
    refine ⟨⟨hk, by omega⟩, ?_⟩
    simp only [Bool.and_eq_true, List.all_eq_true, decide_eq_true_eq]
    refine ⟨?_, hnz⟩
    intro j hj
    obtain ⟨hj1, hj2⟩ := List.mem_range'_1.mp hj
    exact hloss j hj1 (by omega)

theorem getTiltStreakStats_eq (pairs : List PairedTrade) (sd ed : Option String)
    (h : 10 ≤ (sortPairsByExit (filterPairsByDate pairs sd ed)).length) :
    getTiltStreakStats pairs sd ed =
      [streakStatsFor (pnlValues (sortPairsByExit (filterPairsByDate pairs sd ed))) 1,
        streakStatsFor (pnlValues (sortPairsByExit (filterPairsByDate pairs sd ed))) 2,
        streakStatsFor (pnlValues (sortPairsByExit (filterPairsByDate pairs sd ed))) 3,
        streakStatsFor (pnlValues (sortPairsByExit (filterPairsByDate pairs sd ed))) 4] := by
  rw [getTiltStreakStats, if_neg (by omega)]
  rfl

/-! ## The symbol classifier versus the spec wording -/

theorem no_six_of_short {l : List Char} (hshort : l.length < 6) :
    ¬∃ pre ds post, l = pre ++ ds ++ post ∧ ds.length = 6 ∧ ∀ c ∈ ds, c.isDigit = true := by
  rintro ⟨pre, ds, post, heq, hlen, -⟩
  have := congrArg List.length heq
  simp [List.length_append, hlen] at this
  omega

theorem sixDigitWindow_iff :
    ∀ l : List Char,
      sixDigitWindow l = true ↔
        ∃ pre ds post, l = pre ++ ds ++ post ∧ ds.length = 6 ∧ ∀ c ∈ ds, c.isDigit = true
  | [] => ⟨fun h => by simp [sixDigitWindow] at h,
      fun h => absurd h (no_six_of_short (by simp))⟩
  | [c1] => ⟨fun h => by simp [sixDigitWindow] at h,
      fun h => absurd h (no_six_of_short (by simp))⟩
  | [c1, c2] => ⟨fun h => by simp [sixDigitWindow] at h,
      fun h => absurd h (no_six_of_short (by simp))⟩
  | [c1, c2, c3] => ⟨fun h => by simp [sixDigitWindow] at h,
      fun h => absurd h (no_six_of_short (by simp))⟩
  | [c1, c2, c3, c4] => ⟨fun h => by simp [sixDigitWindow] at h,
      fun h => absurd h (no_six_of_short (by simp))⟩
  | [c1, c2, c3, c4, c5] => ⟨fun h => by simp [sixDigitWindow] at h,
      fun h => absurd h (no_six_of_short (by simp))⟩
  | c1 :: c2 :: c3 :: c4 :: c5 :: c6 :: rest => by
    rw [sixDigitWindow]
    constructor
    · intro h
      rcases Bool.or_eq_true _ _ |>.mp h with h | h
      · obtain ⟨⟨⟨⟨⟨h1, h2⟩, h3⟩, h4⟩, h5⟩, h6⟩ := by
          simpa only [Bool.and_eq_true] using h
        refine ⟨[], [c1, c2, c3, c4, c5, c6], rest, rfl, rfl, ?_⟩
        intro c hc
        simp only [List.mem_cons, List.not_mem_nil, or_false] at hc
        rcases hc with rfl | rfl | rfl | rfl | rfl | rfl <;> assumption
      · obtain ⟨pre, ds, post, heq, hlen, hdig⟩ :=
          (sixDigitWindow_iff (c2 :: c3 :: c4 :: c5 :: c6 :: rest)).mp h
        exact ⟨c1 :: pre, ds, post, by simp [heq], hlen, hdig⟩
    · rintro ⟨pre, ds, post, heq, hlen, hdig⟩
      rcases pre with _ | ⟨p, pre'⟩
      · rcases ds with _ | ⟨d1, ds⟩; · simp at hlen
        rcases ds with _ | ⟨d2, ds⟩; · simp at hlen
        rcases ds with _ | ⟨d3, ds⟩; · simp at hlen
        rcases ds with _ | ⟨d4, ds⟩; · simp at hlen
        rcases ds with _ | ⟨d5, ds⟩; · simp at hlen
        rcases ds with _ | ⟨d6, ds⟩; · simp at hlen
        rcases ds with _ | ⟨d7, ds⟩
        · simp only [List.nil_append, List.cons_append, List.cons.injEq] at heq
          obtain ⟨h1, h2, h3, h4, h5, h6, -⟩ := heq
          refine Bool.or_eq_true _ _ |>.mpr (Or.inl ?_)
          simp only [Bool.and_eq_true]
          subst h1 h2 h3 h4 h5 h6
          refine ⟨⟨⟨⟨⟨?_, ?_⟩, ?_⟩, ?_⟩, ?_⟩, ?_⟩ <;>
            exact hdig _ (by simp)
        · simp at hlen
      · simp only [List.cons_append, List.cons.injEq] at heq
        obtain ⟨-, heq'⟩ := heq
        refine Bool.or_eq_true _ _ |>.mpr (Or.inr ?_)
        exact (sixDigitWindow_iff (c2 :: c3 :: c4 :: c5 :: c6 :: rest)).mpr
          ⟨pre', ds, post, heq', hlen, hdig⟩

/-- The code's classifier agrees exactly with the spec's wording. -/
theorem is_options_symbol_iff (s : String) :
    is_options_symbol s = true ↔ spec_is_option s := by
  have hany : ∀ c : Char, (s.data.any fun x => x == c) = true ↔ c ∈ s.data := by
    intro c
    rw [List.any_eq_true]
    constructor
    · rintro ⟨x, hx, he⟩
      rwa [beq_iff_eq.mp he] at hx
    · intro h
      exact ⟨c, h, by simp⟩
  rw [spec_is_option]
  simp only [is_options_symbol]
  by_cases hlen : s.data.length < 10
  · rw [if_pos hlen]
    refine iff_of_false (by simp) ?_
    rintro ⟨h10, -, -⟩
    omega
  · rw [if_neg hlen]
    by_cases hcp : 'C' ∈ s.data ∨ 'P' ∈ s.data
    · have hAB : ((s.data.any fun x => x == 'C') || s.data.any fun x => x == 'P') = true := by
        rcases hcp with h | h
        · exact Bool.or_eq_true _ _ |>.mpr (Or.inl ((hany 'C').mpr h))
        · exact Bool.or_eq_true _ _ |>.mpr (Or.inr ((hany 'P').mpr h))
      rw [hAB]
      simp only [Bool.not_true, Bool.false_eq_true, if_false, Bool.true_and,
        Bool.or_eq_true, decide_eq_true_eq]
      constructor
      · rintro (h | h)
        · exact ⟨by omega, hcp, Or.inl ((sixDigitWindow_iff s.data).mp h)⟩
        · exact ⟨by omega, hcp, Or.inr h⟩
      · rintro ⟨-, -, h | h⟩
        · exact Or.inl ((sixDigitWindow_iff s.data).mpr h)
        · exact Or.inr h
    · have hC : (s.data.any fun x => x == 'C') = false := by
        rw [Bool.eq_false_iff]
        intro h
        exact hcp (Or.inl ((hany 'C').mp h))
      have hP : (s.data.any fun x => x == 'P') = false := by
        rw [Bool.eq_false_iff]
        intro h
        exact hcp (Or.inr ((hany 'P').mp h))
      rw [hC, hP]
      refine iff_of_false (by simp) ?_
      rintro ⟨-, h, -⟩
      exact hcp h

/-! ## The claims -/

/-- C1: counterexample to the spec's fee bookkeeping: the single option
pair of `optTrades` (multiplier 100) stores gross 100, entry fees 1,
exit fees 0 and net 0, so `net = gross - entry_fees - exit_fees` fails
for it. -/
theorem C1_counterexample :
    ((pair_trades optTrades true id).1.map fun p =>
        (p.net_profit_loss, p.gross_profit_loss, p.entry_fees, p.exit_fees)) =
      [(0, 100, 1, 0)] ∧
      ¬∀ p ∈ (pair_trades optTrades true id).1,
        p.net_profit_loss = p.gross_profit_loss - p.entry_fees - p.exit_fees := by
  with_unfolding_all decide

/-- C1: the relation the matcher actually maintains: every emitted pair
satisfies `net = gross - multiplier * (entry_fees + exit_fees)`; the
stored fee fields do not include the options multiplier, which is
applied to them only inside the net. -/
theorem C1_net_gross_fee_relation (trades : List Trade) (ff : Bool)
    (iter : List (String × List Lot) → List (String × List Lot)) :
    ∀ p ∈ (pair_trades trades ff iter).1,
      p.net_profit_loss =
        p.gross_profit_loss -
          options_multiplier p.symbol * (p.entry_fees + p.exit_fees) := by
  intro p hp
  rw [pair_trades_fst] at hp
  refine foldl_pairs_pred ff
    (fun q => q.net_profit_loss =
      q.gross_profit_loss - options_multiplier q.symbol * (q.entry_fees + q.exit_fees))
    ?_ _ _ ?_ p hp
  · intro bb sym tid price ts tf sid tq r ps
    simp only [stepPair_net, stepPair_gross, stepPair_symbol, stepPair_entry_fees,
      stepPair_exit_fees]
    ring
  · intro q hq
    exact absurd hq (List.not_mem_nil q)

/-- C1: the fee relation instantiated at the concrete option pair. -/
theorem C1_net_gross_fee_relation_witness :
    ((pair_trades optTrades true id).1.headD default).net_profit_loss =
      ((pair_trades optTrades true id).1.headD default).gross_profit_loss -
        options_multiplier ((pair_trades optTrades true id).1.headD default).symbol *
          (((pair_trades optTrades true id).1.headD default).entry_fees +
            ((pair_trades optTrades true id).1.headD default).exit_fees) :=
  C1_net_gross_fee_relation optTrades true id _ (by with_unfolding_all decide)

/-- C2: counterexample on the entry side: the 10-share lot with fee 10 is
fully closed by two 5-share sells (no residual anywhere), yet its
prorated entry-fee contributions across the two emitted pairs sum to 15,
not 10: the lot's stored fee is not reduced after the partial close. -/
theorem C2_counterexample :
    (pair_trades c2trades true id).2 = [] ∧
      entryFeeSumFor (pair_trades c2trades true id).1 1 = 15 ∧
      ¬entryFeeSumFor (pair_trades c2trades true id).1 1 = 10 := by
  with_unfolding_all decide

/-- C2: fee conservation does hold on the closing side: an incoming
trade of quantity `tq ≠ 0` whose closing loop ends with zero residual
has prorated `exit_fees` contributions summing to exactly its fee `tf`. -/
theorem C2_exit_fee_conservation (ff bb : Bool) (sym : String) (tid : Int)
    (price : ℚ) (ts : String) (tf : ℚ) (sid : Option Int) (tq : ℚ)
    (fuel : Nat) (positions : List Lot) (htq : tq ≠ 0)
    (hres : (closeLoop ff bb sym tid price ts tf sid tq fuel tq positions).2.2 = 0) :
    exitFeesTotal (closeLoop ff bb sym tid price ts tf sid tq fuel tq positions).1 =
      tf := by
  rw [closeLoop_exit_fees, hres, sub_zero, div_self htq, mul_one]

/-- C2: closing-side conservation at a concrete run: a sell of 5 with
fee 7 against a 10-share lot leaves zero residual and its exit-fee
contributions sum to 7. -/
theorem C2_exit_fee_conservation_witness :
    exitFeesTotal (closeLoop true false "AAPL" 9 100 "3" 7 none 5 2 5
      [⟨1, 10, 100, "1", 10, none⟩]).1 = 7 :=
  C2_exit_fee_conservation true false "AAPL" 9 100 "3" 7 none 5 2
    [⟨1, 10, 100, "1", 10, none⟩] (by decide) (by with_unfolding_all decide)

/-- C3: the emitted pair list is independent of the hash-map iteration
order, but the emitted open-trade list is not: with `AAA` and `BBB` both
left open, iterating the final map as stored emits `AAA` before `BBB`
while iterating it reversed emits `BBB` first, so the returned value
depends on the map's iteration order, which `std::collections::HashMap`
randomizes per process. -/
theorem C3_open_trades_order_depends_on_iteration :
    (pair_trades c3trades true id).1 = (pair_trades c3trades true List.reverse).1 ∧
      ((pair_trades c3trades true id).2.map Trade.symbol) = ["AAA", "BBB"] ∧
      ((pair_trades c3trades true List.reverse).2.map Trade.symbol) = ["BBB", "AAA"] ∧
      ¬(pair_trades c3trades true id).2 = (pair_trades c3trades true List.reverse).2 := by
  with_unfolding_all decide

/-- C4: counterexample to policy-independence of the summed net P&L: on
`c4trades` both policies close every position, yet the summed
`net_profit_loss` is −15 under FIFO and −10 under LIFO (entry-fee
proration differs when the fee-bearing lot is split). -/
theorem C4_counterexample :
    (pair_trades c4trades true id).2 = [] ∧
      (pair_trades c4trades false id).2 = [] ∧
      netTotal (pair_trades c4trades true id).1 = -15 ∧
      netTotal (pair_trades c4trades false id).1 = -10 := by
  with_unfolding_all decide

/-- C4: what is policy-independent: for positive-integer-quantity
histories fully closed under both policies, the summed gross
(price-based) P&L of the emitted pairs is the same under FIFO and LIFO. -/
theorem C4_gross_total_policy_independent (trades : List Trade)
    (hqty : ∀ t ∈ trades, ∃ n : ℕ, t.quantity = (n : ℚ) ∧ 1 ≤ n)
    (hfifo : (pair_trades trades true id).2 = [])
    (hlifo : (pair_trades trades false id).2 = []) :
    grossTotal (pair_trades trades true id).1 =
      grossTotal (pair_trades trades false id).1 := by
  have key : ∀ ff : Bool, (pair_trades trades ff id).2 = [] →
      grossTotal (pair_trades trades ff id).1 =
        tradeDeltaSum (List.insertionSort
          (fun a b : Trade => strLe a.timestamp b.timestamp = true) trades) := by
    intro ff hopen
    obtain ⟨hnat, -, -, hval⟩ := pair_trades_balances trades ff hqty
    rw [pair_trades_snd] at hopen
    simp only [id_eq] at hopen
    rw [List.append_eq_nil] at hopen
    have hlv : mapVal ((List.insertionSort (fun a b : Trade =>
        strLe a.timestamp b.timestamp = true) trades).foldl
        (processTrade ff) ⟨[], [], []⟩).long_positions = 0 :=
      mapVal_eq_zero_of_empty _ (map_lots_nil_of_opens_nil "BUY" _
        (fun lot hl => hnat lot (List.mem_append_left _ hl)) hopen.1)
    have hsv : mapVal ((List.insertionSort (fun a b : Trade =>
        strLe a.timestamp b.timestamp = true) trades).foldl
        (processTrade ff) ⟨[], [], []⟩).short_positions = 0 :=
      mapVal_eq_zero_of_empty _ (map_lots_nil_of_opens_nil "SELL" _
        (fun lot hl => hnat lot (List.mem_append_right _ hl)) hopen.2)
    rw [pair_trades_fst]
    have hv := hval
    simp only [valBalance] at hv
    rw [hlv, hsv] at hv
    simpa using hv
  rw [key true hfifo, key false hlifo]

/-- C4: gross policy-independence at the concrete fee-splitting history. -/
theorem C4_gross_total_policy_independent_witness :
    grossTotal (pair_trades c4trades true id).1 =
      grossTotal (pair_trades c4trades false id).1 :=
  C4_gross_total_policy_independent c4trades
    (by
      intro t ht
      simp only [c4trades, List.mem_cons, List.not_mem_nil, or_false] at ht
      rcases ht with rfl | rfl | rfl | rfl
      · exact ⟨10, by norm_num⟩
      · exact ⟨5, by norm_num⟩
      · exact ⟨5, by norm_num⟩
      · exact ⟨10, by norm_num⟩)
    (by with_unfolding_all decide) (by with_unfolding_all decide)

/-- C5: counterexample with a fractional quantity: a buy of `10.00005`
against a short lot of 10 closes 10 and silently drops the `0.00005`
residual (below the `0.0001` epsilon), so the buy-side input quantity
strictly exceeds closed quantity plus open residual. -/
theorem C5_counterexample :
    pairsQtyTotal (pair_trades c5trades true id).1 "XYZ" = 10 ∧
      (pair_trades c5trades true id).2 = [] ∧
      10 < sideQtyTotal c5trades "BUY" "XYZ" ∧
      pairsQtyTotal (pair_trades c5trades true id).1 "XYZ" +
          openQtyTotal (pair_trades c5trades true id).2 "BUY" "XYZ" <
        sideQtyTotal c5trades "BUY" "XYZ" := by
  with_unfolding_all decide

/-- C5: quantity conservation for positive-integer quantities: per
symbol, the buy-side input quantity equals the closed pair quantity plus
the open long residual, and the sell-side input quantity equals the
closed pair quantity plus the open short residual (each pair consumes
its quantity once on each side). -/
theorem C5_quantity_conservation (trades : List Trade) (ff : Bool) (sym : String)
    (hqty : ∀ t ∈ trades, ∃ n : ℕ, t.quantity = (n : ℚ) ∧ 1 ≤ n) :
    sideQtyTotal trades "BUY" sym =
        pairsQtyTotal (pair_trades trades ff id).1 sym +
          openQtyTotal (pair_trades trades ff id).2 "BUY" sym ∧
      sideQtyTotal trades "SELL" sym =
        pairsQtyTotal (pair_trades trades ff id).1 sym +
          openQtyTotal (pair_trades trades ff id).2 "SELL" sym := by
  obtain ⟨hnat, hbuy, hsell, -⟩ := pair_trades_balances trades ff hqty
  constructor
  · rw [pair_trades_fst, pair_trades_snd]
    simp only [id_eq]
    rw [openQtyTotal_append,
      openQtyTotal_flat "BUY" "BUY" sym _
        (fun lot hl => hnat lot (List.mem_append_left _ hl)),
      openQtyTotal_flat "SELL" "BUY" sym _
        (fun lot hl => hnat lot (List.mem_append_right _ hl)),
      if_pos rfl, if_neg sell_ne_buy, add_zero]
    exact (hbuy sym).symm
  · rw [pair_trades_fst, pair_trades_snd]
    simp only [id_eq]
    rw [openQtyTotal_append,
      openQtyTotal_flat "BUY" "SELL" sym _
        (fun lot hl => hnat lot (List.mem_append_left _ hl)),
      openQtyTotal_flat "SELL" "SELL" sym _
        (fun lot hl => hnat lot (List.mem_append_right _ hl)),
      if_pos rfl, if_neg buy_ne_sell, zero_add]
    exact (hsell sym).symm

/-- C5: conservation at a concrete integer-quantity history. -/
theorem C5_quantity_conservation_witness :
    sideQtyTotal c2trades "BUY" "AAPL" =
        pairsQtyTotal (pair_trades c2trades true id).1 "AAPL" +
          openQtyTotal (pair_trades c2trades true id).2 "BUY" "AAPL" ∧
      sideQtyTotal c2trades "SELL" "AAPL" =
        pairsQtyTotal (pair_trades c2trades true id).1 "AAPL" +
          openQtyTotal (pair_trades c2trades true id).2 "SELL" "AAPL" :=
  C5_quantity_conservation c2trades true "AAPL"
    (by
      intro t ht
      simp only [c2trades, List.mem_cons, List.not_mem_nil, or_false] at ht
      rcases ht with rfl | rfl | rfl
      · exact ⟨10, by norm_num⟩
      · exact ⟨5, by norm_num⟩
      · exact ⟨5, by norm_num⟩)

/-- C6: the options classifier agrees with the spec's wording on every
string, the multiplier is 100 for `SPY251218C00679000` and 1 for
`AAPL`, and every emitted pair's gross P&L is a signed per-share price
delta times quantity times its symbol's multiplier while its net P&L is
the same per-share amount minus the stored fees, times the same
multiplier — so gross and net are both scaled by 100 on option symbols
and by 1 on stock symbols. -/
theorem C6_options_classifier :
    (∀ s : String, is_options_symbol s = true ↔ spec_is_option s) ∧
      options_multiplier "SPY251218C00679000" = 100 ∧
      options_multiplier "AAPL" = 1 ∧
      ∀ (trades : List Trade) (ff : Bool)
        (iter : List (String × List Lot) → List (String × List Lot)),
        ∀ p ∈ (pair_trades trades ff iter).1,
          (p.gross_profit_loss =
              (p.exit_price - p.entry_price) * p.quantity *
                options_multiplier p.symbol ∧
            p.net_profit_loss =
              ((p.exit_price - p.entry_price) * p.quantity -
                  (p.entry_fees + p.exit_fees)) *
                options_multiplier p.symbol) ∨
            (p.gross_profit_loss =
              (p.entry_price - p.exit_price) * p.quantity *
                options_multiplier p.symbol ∧
            p.net_profit_loss =
              ((p.entry_price - p.exit_price) * p.quantity -
                  (p.entry_fees + p.exit_fees)) *
                options_multiplier p.symbol) := by
  refine ⟨is_options_symbol_iff, by decide, by decide, ?_⟩
  intro trades ff iter p hp
  rw [pair_trades_fst] at hp
  refine foldl_pairs_pred ff
    (fun q => (q.gross_profit_loss = (q.exit_price - q.entry_price) * q.quantity *
          options_multiplier q.symbol ∧
        q.net_profit_loss = ((q.exit_price - q.entry_price) * q.quantity -
            (q.entry_fees + q.exit_fees)) * options_multiplier q.symbol) ∨
      (q.gross_profit_loss = (q.entry_price - q.exit_price) * q.quantity *
          options_multiplier q.symbol ∧
        q.net_profit_loss = ((q.entry_price - q.exit_price) * q.quantity -
            (q.entry_fees + q.exit_fees)) * options_multiplier q.symbol))
    ?_ _ _ ?_ p hp
  · intro bb sym tid price ts tf sid tq r ps
    cases bb
    · refine Or.inl ⟨by simp, ?_⟩
      simp only [stepPair_net, stepPair_exit_price, stepPair_entry_price,
        stepPair_quantity, stepPair_entry_fees, stepPair_exit_fees, stepPair_symbol,
        Bool.false_eq_true, if_false]
      ring
    · refine Or.inr ⟨by simp, ?_⟩
      simp only [stepPair_net, stepPair_exit_price, stepPair_entry_price,
        stepPair_quantity, stepPair_entry_fees, stepPair_exit_fees, stepPair_symbol,
        if_true]
      ring
  · intro q hq
    exact absurd hq (List.not_mem_nil q)

/-- C6: the gross- and net-P&L shapes at the concrete option pair. -/
theorem C6_options_classifier_witness :
    (((pair_trades optTrades true id).1.headD default).gross_profit_loss =
        (((pair_trades optTrades true id).1.headD default).exit_price -
            ((pair_trades optTrades true id).1.headD default).entry_price) *
          ((pair_trades optTrades true id).1.headD default).quantity *
          options_multiplier ((pair_trades optTrades true id).1.headD default).symbol ∧
      ((pair_trades optTrades true id).1.headD default).net_profit_loss =
        ((((pair_trades optTrades true id).1.headD default).exit_price -
            ((pair_trades optTrades true id).1.headD default).entry_price) *
          ((pair_trades optTrades true id).1.headD default).quantity -
            (((pair_trades optTrades true id).1.headD default).entry_fees +
              ((pair_trades optTrades true id).1.headD default).exit_fees)) *
          options_multiplier ((pair_trades optTrades true id).1.headD default).symbol) ∨
      (((pair_trades optTrades true id).1.headD default).gross_profit_loss =
        (((pair_trades optTrades true id).1.headD default).entry_price -
            ((pair_trades optTrades true id).1.headD default).exit_price) *
          ((pair_trades optTrades true id).1.headD default).quantity *
          options_multiplier ((pair_trades optTrades true id).1.headD default).symbol ∧
      ((pair_trades optTrades true id).1.headD default).net_profit_loss =
        ((((pair_trades optTrades true id).1.headD default).entry_price -
            ((pair_trades optTrades true id).1.headD default).exit_price) *
          ((pair_trades optTrades true id).1.headD default).quantity -
            (((pair_trades optTrades true id).1.headD default).entry_fees +
              ((pair_trades optTrades true id).1.headD default).exit_fees)) *
          options_multiplier ((pair_trades optTrades true id).1.headD default).symbol) :=
  C6_options_classifier.2.2.2 optTrades true id _ (by with_unfolding_all decide)

/-- C7: counterexample to end-inclusiveness: a pair exiting at
`2024-01-05T10:00:00Z` is dropped by the end date `2024-01-05` although
its exit falls on that date. -/
theorem C7_counterexample :
    c7pair.exit_timestamp = "2024-01-05" ++ "T10:00:00Z" ∧
      filterPairsByDate [c7pair] none (some "2024-01-05") = [] := by
  decide

/-- C7: the date filter keeps a pair iff its full exit timestamp lies
between the endpoints in string order; a bare date passes the start
check for every timestamp extending it, while the end check rejects
every timestamp strictly extending the end string, so the end bound is
inclusive only on exact string equality. -/
theorem C7_date_filter :
    (∀ (pairs : List PairedTrade) (a b : String) (p : PairedTrade),
        p ∈ filterPairsByDate pairs (some a) (some b) ↔
          p ∈ pairs ∧ strLe a p.exit_timestamp = true ∧
            strLe p.exit_timestamp b = true) ∧
      (∀ d r : String, strLe d (d ++ r) = true) ∧
      (∀ d r : String, r.data ≠ [] → strLe (d ++ r) d = false) := by
  refine ⟨filterPairsByDate_mem, ?_, ?_⟩
  · intro d r
    show charsLe d.data (d ++ r).data = true
    rw [String.data_append]
    exact charsLe_self_append d.data r.data
  · intro d r hr
    obtain ⟨c, cs, hcs⟩ : ∃ c cs, r.data = c :: cs := by
      cases h : r.data with
      | nil => exact absurd h hr
      | cons c cs => exact ⟨c, cs, rfl⟩
    show charsLe (d ++ r).data d.data = false
    rw [String.data_append, hcs]
    exact charsLe_append_self d.data c cs

/-- C7: the concrete exit timestamp extending the end date compares
above it. -/
theorem C7_date_filter_witness :
    strLe ("2024-01-05" ++ "T10:00:00Z") "2024-01-05" = false :=
  C7_date_filter.2.2 "2024-01-05" "T10:00:00Z" (by decide)

/-- C8: counterexample to "exactly k": with P&L sequence
`[-1, -1, -1, 1, 1, 1, 1, 1, 1, 1]` the `k = 1` sample has size 3
(indices 1, 2 and 3 each have a loss immediately before them), while
only one index follows exactly one consecutive loss. -/
theorem C8_counterexample :
    pnlValues (sortPairsByExit (filterPairsByDate c8pairs none none)) = c8pnl ∧
      ((getTiltStreakStats c8pairs none none).getD 0 default).sample_size = 3 ∧
      exactlyKCount c8pnl 1 = 1 := by
  decide

/-- C8: the per-`k` sample of the tilt analyzer contains index `i` iff
`i` has at least `k` predecessors, its `k` immediately preceding P&L
values are all negative (at least `k` consecutive losses, not exactly
`k`) and its own P&L is nonzero; the reported statistics are computed
over exactly that sample; and with at least 10 pairs the analyzer
returns the `k = 1..4` statistics of the date-filtered, exit-sorted
P&L sequence. -/
theorem C8_streak_sample :
    (∀ (pnl : List ℚ) (k i : ℕ), i ∈ afterKLossesIdx pnl k ↔
        k ≤ i ∧ i < pnl.length ∧ (∀ j, i - k ≤ j → j < i → pnl.getD j 0 < 0) ∧
          pnl.getD i 0 ≠ 0) ∧
      (∀ (pnl : List ℚ) (k : ℕ),
        (streakStatsFor pnl k).sample_size = ((afterKLossesSample pnl k).length : Int) ∧
          (streakStatsFor pnl k).win_rate_after_k_losses =
            (if 0 < (afterKLossesSample pnl k).length then
              (((afterKLossesSample pnl k).filter fun x => decide (0 < x)).length : ℚ) /
                ((afterKLossesSample pnl k).length : ℚ) else 0) ∧
          (streakStatsFor pnl k).avg_pnl_after_k_losses =
            (if 0 < (afterKLossesSample pnl k).length then
              (afterKLossesSample pnl k).sum / ((afterKLossesSample pnl k).length : ℚ)
            else 0)) ∧
      ∀ (pairs : List PairedTrade) (sd ed : Option String),
        10 ≤ (sortPairsByExit (filterPairsByDate pairs sd ed)).length →
        getTiltStreakStats pairs sd ed =
          [streakStatsFor (pnlValues (sortPairsByExit (filterPairsByDate pairs sd ed))) 1,
            streakStatsFor (pnlValues (sortPairsByExit (filterPairsByDate pairs sd ed))) 2,
            streakStatsFor (pnlValues (sortPairsByExit (filterPairsByDate pairs sd ed))) 3,
            streakStatsFor (pnlValues (sortPairsByExit (filterPairsByDate pairs sd ed))) 4]
      := by
  refine ⟨afterKLossesIdx_mem, fun pnl k => ⟨rfl, rfl, rfl⟩, getTiltStreakStats_eq⟩

/-- C8: index 3 of the counterexample sequence is in the `k = 1` sample
although it follows three consecutive losses, not exactly one. -/
theorem C8_streak_sample_witness : 3 ∈ afterKLossesIdx c8pnl 1 :=
  (C8_streak_sample.1 c8pnl 1 3).mpr
    ⟨by norm_num, by decide, fun j h1 h2 => by
      have hj : j = 2 := by omega
      subst hj
      decide, by decide⟩

/-- C9: the profit factor of `get_metrics`: with a winning pair and no
losses the returned field is 0 (the internal infinity is normalized to 0
on output), with neither wins nor losses it is 0, and with losses
present it equals total profit divided by total loss. -/
theorem C9_profit_factor (pairs : List PairedTrade) (sd ed : Option String) :
    ((∃ p ∈ filterPairsByDate pairs sd ed, 0 < p.net_profit_loss) ∧
        (∀ p ∈ filterPairsByDate pairs sd ed, ¬p.net_profit_loss < 0) →
      get_metrics_profit_factor pairs sd ed = 0) ∧
      ((∀ p ∈ filterPairsByDate pairs sd ed, ¬0 < p.net_profit_loss) ∧
          (∀ p ∈ filterPairsByDate pairs sd ed, ¬p.net_profit_loss < 0) →
        get_metrics_profit_factor pairs sd ed = 0) ∧
      (0 < totalLoss (filterPairsByDate pairs sd ed) →
        get_metrics_profit_factor pairs sd ed =
          totalProfit (filterPairsByDate pairs sd ed) /
            totalLoss (filterPairsByDate pairs sd ed)) := by
  refine ⟨?_, ?_, ?_⟩
  · rintro ⟨⟨p, hp, hwin⟩, hnoloss⟩
    have hl0 := totalLoss_eq_zero _ hnoloss
    have hp0 := totalProfit_pos _ p hp hwin
    have hraw : profitFactorRaw (filterPairsByDate pairs sd ed) = none := by
      simp only [profitFactorRaw, hl0]
      rw [if_neg (lt_irrefl 0), if_pos hp0]
    simp only [get_metrics_profit_factor, metricsProfitFactor, hraw]
  · rintro ⟨hnowin, hnoloss⟩
    have hl0 := totalLoss_eq_zero _ hnoloss
    have hp0 := totalProfit_eq_zero _ hnowin
    have hraw : profitFactorRaw (filterPairsByDate pairs sd ed) = some 0 := by
      simp only [profitFactorRaw, hl0, hp0]
      rw [if_neg (lt_irrefl 0), if_neg (lt_irrefl 0)]
    simp only [get_metrics_profit_factor, metricsProfitFactor, hraw]
  · intro hl
    have hraw : profitFactorRaw (filterPairsByDate pairs sd ed) =
        some (totalProfit (filterPairsByDate pairs sd ed) /
          totalLoss (filterPairsByDate pairs sd ed)) := by
      simp only [profitFactorRaw]
      rw [if_pos hl]
    simp only [get_metrics_profit_factor, metricsProfitFactor, hraw]

/-- C9: a single winning pair and no losses yields profit factor 0. -/
theorem C9_profit_factor_witness :
    get_metrics_profit_factor c9pairs none none = 0 :=
  (C9_profit_factor c9pairs none none).1
    ⟨⟨⟨"AAPL", 1, 2, 1, 100, 105, "1", "2", 5, 0, 0, 5, none, none⟩,
      by decide, by decide⟩, by decide⟩

/-- C10: every emitted pair closes no earlier than it opened: entry
timestamp ≤ exit timestamp in string order, under either policy and any
map iteration order. -/
theorem C10_entry_le_exit (trades : List Trade) (ff : Bool)
    (iter : List (String × List Lot) → List (String × List Lot)) :
    ∀ p ∈ (pair_trades trades ff iter).1,
      strLe p.entry_timestamp p.exit_timestamp = true := by
  intro p hp
  rw [pair_trades_fst] at hp
  refine foldl_ts ff _ ⟨[], [], []⟩ (List.sorted_insertionSort _ trades) ?_ ?_ p hp
  · intro lot hlot
    exact absurd hlot (List.not_mem_nil lot)
  · intro q hq
    exact absurd hq (List.not_mem_nil q)

/-- C10: entry-before-exit at the concrete option pair. -/
theorem C10_entry_le_exit_witness :
    strLe ((pair_trades optTrades true id).1.headD default).entry_timestamp
      ((pair_trades optTrades true id).1.headD default).exit_timestamp = true :=
  C10_entry_le_exit optTrades true id _ (by with_unfolding_all decide)

end TradeButler
